import Mathlib

/-!
Verification of the disk I/O engine and peer-wire message codec of the
Synapse BitTorrent client, as a shallow embedding of:

- `src/disk/job.rs` (Request construction and `Request::execute`),
- `src/util/native.rs` (`fallocate`),
- `src/torrent/peer/message.rs` (`Message::len` / `Message::encode`).

Machine integers are modelled as `Nat` with explicit `% 2^w` where overflow
matters; fallible filesystem and socket operations are modelled by explicit
outcome oracles; the SHA-1 digest (supplied by openssl in the source) is
implemented concretely below and the piece-validation model is additionally
parametric in the digest function.
-/

set_option maxRecDepth 4000

/-! ## Byte-level helpers -/

/-- `n % 2^32`: truncation to a 32-bit word. -/
def m32 (n : Nat) : Nat := n % 4294967296

/-- Big-endian encoding of `n` into `k` bytes (truncating high bits). -/
def beBytes : Nat → Nat → List Nat
  | 0, _ => []
  | k + 1, n => (n / 2 ^ (8 * k)) % 256 :: beBytes k n

/-- Big-endian `u32`, as written by `byteorder::WriteBytesExt::write_u32`. -/
def be32 (n : Nat) : List Nat := beBytes 4 n

/-- Big-endian `u16`, as written by `write_u16`. -/
def be16 (n : Nat) : List Nat := beBytes 2 n

/-- Big-endian `u64`, used by SHA-1 length padding. -/
def be64 (n : Nat) : List Nat := beBytes 8 n

/-! ## SHA-1 (the digest openssl's `sha::Sha1` computes in the source) -/

/-- Left-rotation of a 32-bit word by `k` bits. -/
def rotl (k x : Nat) : Nat := m32 (x * 2 ^ k % 4294967296 + x / 2 ^ (32 - k))

/-- The SHA-1 round function for round `i`. -/
def sha1F (i b c d : Nat) : Nat :=
  if i < 20 then (b &&& c) ||| ((b ^^^ 4294967295) &&& d)
  else if i < 40 then b ^^^ c ^^^ d
  else if i < 60 then (b &&& c) ||| (b &&& d) ||| (c &&& d)
  else b ^^^ c ^^^ d

/-- The SHA-1 round constant for round `i`. -/
def sha1K (i : Nat) : Nat :=
  if i < 20 then 1518500249
  else if i < 40 then 1859775393
  else if i < 60 then 2400959708
  else 3395469782

/-- Group a byte list into big-endian 32-bit words. -/
def toWords : List Nat → List Nat
  | a :: b :: c :: d :: rest => (((a * 256 + b) * 256 + c) * 256 + d) :: toWords rest
  | _ => []

/-- The 80-word message schedule of one SHA-1 block. -/
def sha1W (block : List Nat) : List Nat :=
  (List.range 64).foldl
    (fun w _ =>
      w ++ [rotl 1 (w.getD (w.length - 3) 0 ^^^ w.getD (w.length - 8) 0 ^^^
        w.getD (w.length - 14) 0 ^^^ w.getD (w.length - 16) 0)])
    (toWords block)

/-- One SHA-1 compression round on the state `(a, b, c, d, e)`. -/
def sha1Round (st : Nat × Nat × Nat × Nat × Nat) (iw : Nat × Nat) :
    Nat × Nat × Nat × Nat × Nat :=
  let (a, b, c, d, e) := st
  let (i, wi) := iw
  (m32 (rotl 5 a + sha1F i b c d + e + sha1K i + wi), a, rotl 30 b, c, d)

/-- Process one 64-byte block, updating the running hash `[h0, h1, h2, h3, h4]`. -/
def sha1Block (h : List Nat) (block : List Nat) : List Nat :=
  let w := sha1W block
  let (a, b, c, d, e) :=
    (List.zip (List.range 80) w).foldl sha1Round
      (h.getD 0 0, h.getD 1 0, h.getD 2 0, h.getD 3 0, h.getD 4 0)
  [m32 (h.getD 0 0 + a), m32 (h.getD 1 0 + b), m32 (h.getD 2 0 + c),
    m32 (h.getD 3 0 + d), m32 (h.getD 4 0 + e)]

/-- SHA-1 padding: `0x80`, zeros to 56 mod 64, then the 64-bit bit length. -/
def sha1Pad (msg : List Nat) : List Nat :=
  msg ++ [128] ++ List.replicate ((119 - msg.length % 64) % 64) 0 ++ be64 (msg.length * 8)

/-- Split a byte list into 64-byte chunks (fuelled by the list length). -/
def chunksGo : Nat → List Nat → List (List Nat)
  | 0, _ => []
  | _, [] => []
  | n + 1, l => l.take 64 :: chunksGo n (l.drop 64)

/-- Split a byte list into 64-byte chunks. -/
def chunks64 (l : List Nat) : List (List Nat) := chunksGo l.length l

/-- The 20-byte SHA-1 digest of a byte list. -/
def sha1 (msg : List Nat) : List Nat :=
  ((chunks64 (sha1Pad msg)).foldl sha1Block
    [1732584193, 4023233417, 2562383102, 271733878, 3285377520]).flatMap be32

/-! ## Decimal rendering (the `{}` `Display` formatting of `u64` in `format!`) -/

/-- One decimal digit character. -/
def digitChar (d : Nat) : Char :=
  if d = 0 then '0' else if d = 1 then '1' else if d = 2 then '2'
  else if d = 3 then '3' else if d = 4 then '4' else if d = 5 then '5'
  else if d = 6 then '6' else if d = 7 then '7' else if d = 8 then '8'
  else if d = 9 then '9' else '*'

/-- Decimal rendering of a natural number, as Rust's `Display` for integers. -/
def natStr (n : Nat) : List Char :=
  if n = 0 then ['0'] else (Nat.digits 10 n).reverse.map digitChar

/-! ## Substring search (used to state that no boundary appears in a header) -/

/-- `matchAt pat l`: `pat` is a prefix of `l`. -/
def matchAt : List Char → List Char → Bool
  | [], _ => true
  | _ :: _, [] => false
  | p :: ps, c :: cs => p == c && matchAt ps cs

/-- `containsSeq pat l`: `pat` occurs as a contiguous run inside `l`. -/
def containsSeq (pat : List Char) : List Char → Bool
  | [] => matchAt pat []
  | c :: cs => matchAt pat (c :: cs) || containsSeq pat cs

/-- The fixed multipart boundary literal `MP_BOUNDARY` of `disk/job.rs`. -/
def mpBoundary : List Char := ("qxyllcqgNchqyob").toList

/-! ## Torrent info, locations, and the read oracle

`torrent::Info` and `Info::piece_disk_locs` are outside the provided
sources. Modelled from the spec: `TorrentInfo` supplies a per-piece length,
a total piece count, and a vector of 20-byte SHA-1 piece hashes; a
`LocationIterator` is a lazy finite sequence of `Location`s produced from a
`(torrent_info, piece_index)` query, each `Location` carrying a resolved
file path, a byte `offset` into the file, and `start`/`end` byte offsets
within the piece buffer. -/

/-- One `Location` of `disk/job.rs` (the `end` field is called `stop`). -/
structure VLoc where
  path : String
  offset : Nat
  start : Nat
  stop : Nat
deriving DecidableEq

/-- Modelled from the spec: the slice of `torrent::Info` the validation
arms consume — piece length, hash table, and `piece_disk_locs` per piece
index (the piece count is the hash-table length). -/
structure VInfo where
  pieceLen : Nat
  hashes : List (List Nat)
  locs : Nat → List VLoc

/-- `Info::pieces()`: the number of pieces. -/
def VInfo.pieces (info : VInfo) : Nat := info.hashes.length

/-- Digest functions: the interface of openssl's `sha::Sha1` (update with
byte slices, finish to a digest); `sha1` above is its real instance. -/
def DigestFn : Type := List Nat → List Nat

/-- Read-outcome oracle for `FileCache::read_file_range` at a location:
`some bs` means the read succeeds and fills the buffer slice with `bs`,
`none` means it returns an error. -/
def ReadFn : Type := VLoc → Option (List Nat)

/-- `buf[start..start+bs.length].copy_from_slice(bs)`: overwrite a slice
of the piece buffer in place. -/
def writeSlice (buf : List Nat) (start : Nat) (bs : List Nat) : List Nat :=
  buf.take start ++ bs ++ buf.drop (start + bs.length)

/-- `buf[a..b]`: the slice of the piece buffer passed to `ctx.update`. -/
def listExtract (l : List Nat) (a b : Nat) : List Nat := (l.drop a).take (b - a)

/-- The inner loop of the `ValidatePiece` arm: for each location, read into
`buf[start..end]` and, only on success, feed that slice to the hash
context; errors are discarded by `.ok()` and the loop continues. Returns
the buffer and the accumulated hash-context stream. -/
def vpGo (read : ReadFn) : List VLoc → List Nat → List Nat → List Nat × List Nat
  | [], buf, acc => (buf, acc)
  | loc :: ls, buf, acc =>
    match read loc with
    | some bs =>
      let buf' := writeSlice buf loc.start bs
      vpGo read ls buf' (acc ++ listExtract buf' loc.start loc.stop)
    | none => vpGo read ls buf acc

/-- The `ValidatePiece` arm of `Request::execute`: hash the piece's
locations into a fresh context over the scratch buffer `buf` and compare
the digest with `info.hashes[piece]`. Returns the `valid` flag of the
`PieceValidated` response and the scratch buffer it leaves behind. -/
def validatePieceExec (h : DigestFn) (read : ReadFn) (info : VInfo) (buf : List Nat)
    (piece : Nat) : Bool × List Nat :=
  match vpGo read (info.locs piece) buf [] with
  | (buf', acc) => (h acc == info.hashes.getD piece [], buf')

/-- The inner loop of one `Validate` iteration: like `vpGo` but tracking
the `valid` flag — a failed read clears it and the `if !valid break` at
the top of the next iteration stops the scan of this piece's locations. -/
def vvGo (read : ReadFn) : List VLoc → List Nat → List Nat → Bool →
    List Nat × List Nat × Bool
  | [], buf, acc, valid => (buf, acc, valid)
  | loc :: ls, buf, acc, valid =>
    if valid then
      match read loc with
      | some bs =>
        let buf' := writeSlice buf loc.start bs
        vvGo read ls buf' (acc ++ listExtract buf' loc.start loc.stop) true
      | none => vvGo read ls buf acc false
    else (buf, acc, valid)

/-- One iteration of the `Validate` while-loop on piece `idx`: whether
`idx` is pushed onto `invalid` (`!valid || digest != info.hashes[idx]`),
and the scratch buffer afterwards. -/
def validateStepExec (h : DigestFn) (read : ReadFn) (info : VInfo) (buf : List Nat)
    (idx : Nat) : Bool × List Nat :=
  match vvGo read (info.locs idx) buf [] true with
  | (buf', acc, valid) => (!valid || h acc != info.hashes.getD idx [], buf')

/-- The `Validate` while-loop, fuelled by the number of loop iterations the
time slice allows: processes pieces `idx, idx+1, …` until the fuel or the
pieces run out, accumulating `invalid`. Returns `(idx', invalid', buf')`. -/
def validateGo (h : DigestFn) (read : ReadFn) (info : VInfo) :
    Nat → Nat → List Nat → List Nat → Nat × List Nat × List Nat
  | 0, idx, invalid, buf => (idx, invalid, buf)
  | n + 1, idx, invalid, buf =>
    if idx < info.pieces then
      match validateStepExec h read info buf idx with
      | (bad, buf') =>
        validateGo h read info n (idx + 1) (invalid ++ if bad then [idx] else []) buf'
    else (idx, invalid, buf)

/-- Result of one execution of a `Validate` request: the terminal
`ValidationComplete{invalid}` or an `Update` carrying the resumed request's
`idx` and `invalid` (the scratch buffer persists in the executor). -/
inductive VSliceRes
  | complete (invalid : List Nat) (buf : List Nat)
  | update (idx : Nat) (invalid : List Nat) (buf : List Nat)

/-- The `Validate` arm of `Request::execute`, with the clock modelled as a
fuel `j`: the number of whole loop iterations that fit in the time slice.
After the loop, `idx == info.pieces()` yields `ValidationComplete` and
anything less yields `Update` with the rebuilt request. -/
def validateSlice (h : DigestFn) (read : ReadFn) (info : VInfo) (j idx : Nat)
    (invalid buf : List Nat) : VSliceRes :=
  match validateGo h read info j idx invalid buf with
  | (idx', invalid', buf') =>
    if idx' = info.pieces then .complete invalid' buf'
    else .update idx' invalid' buf'

/-- Chained execution of a `Validate` request through its `Update`
continuations: `schedule` lists, per time slice, how many loop iterations
the clock admits. `some invalid` is the terminal `ValidationComplete`;
`none` means the schedule ended before completion. -/
def runValidate (h : DigestFn) (read : ReadFn) (info : VInfo) :
    List Nat → Nat → List Nat → List Nat → Option (List Nat)
  | [], _, _, _ => none
  | j :: rest, idx, invalid, buf =>
    match validateSlice h read info j idx invalid buf with
    | .complete invalid' _ => some invalid'
    | .update idx' invalid' buf' => runValidate h read info rest idx' invalid' buf'

/-! ### Pure per-piece read/hash descriptions (the spec side) -/

/-- The concatenation of the successful reads of a location list — what the
`ValidatePiece` arm feeds its hash context. -/
def concatReads (read : ReadFn) : List VLoc → List Nat
  | [] => []
  | loc :: ls => (match read loc with | some bs => bs | none => []) ++ concatReads read ls

/-- What the `Validate` arm feeds its hash context for one piece: the reads
up to (excluding) the first failure, and whether all reads succeeded. -/
def readPrefix (read : ReadFn) : List VLoc → Bool × List Nat
  | [] => (true, [])
  | loc :: ls =>
    match read loc with
    | none => (false, [])
    | some bs => match readPrefix read ls with | (ok, rest) => (ok, bs ++ rest)

/-- The pure predicate deciding whether `Validate` marks piece `idx`
invalid: a failed read, or a digest mismatch over the prefix of reads. -/
def pieceInvalidP (h : DigestFn) (read : ReadFn) (info : VInfo) (idx : Nat) : Bool :=
  match readPrefix read (info.locs idx) with
  | (ok, stream) => !ok || h stream != info.hashes.getD idx []

/-- The pure `valid` value of `ValidatePiece`: digest over the successful
reads against `info.hashes[piece]`. -/
def pieceValidP (h : DigestFn) (read : ReadFn) (info : VInfo) (piece : Nat) : Bool :=
  h (concatReads read (info.locs piece)) == info.hashes.getD piece []

/-- The invalid indices `Validate` accumulates scanning pieces
`idx, …, idx+k-1`. -/
def invalidFrom (h : DigestFn) (read : ReadFn) (info : VInfo) : Nat → Nat → List Nat
  | _, 0 => []
  | idx, k + 1 =>
    (if pieceInvalidP h read info idx then [idx] else []) ++
      invalidFrom h read info (idx + 1) k

/-- Well-formedness of the read oracle: a successful read fills exactly the
requested buffer slice (`read_file_range` reads `out.len()` bytes). -/
def ReadWF (read : ReadFn) : Prop :=
  ∀ loc bs, read loc = some bs → bs.length = loc.stop - loc.start

/-- Spec invariants 1–2 for the produced locations of every piece: each
location's slice lies inside the piece buffer. -/
def GoodLocs (info : VInfo) : Prop :=
  ∀ p loc, loc ∈ info.locs p → loc.start ≤ loc.stop ∧ loc.stop ≤ info.pieceLen

/-! ### Concrete validation instances for witnesses and counterexamples -/

/-- A two-piece torrent: piece 0's stored hash matches its content, piece
1's does not. -/
def wInfo : VInfo where
  pieceLen := 1
  hashes := [sha1 [5], sha1 [9]]
  locs := fun p => [{ path := "f", offset := p, start := 0, stop := 1 }]

/-- Reads always succeed: byte 5 at offset 0, byte 7 elsewhere. -/
def wRead : ReadFn := fun loc =>
  some (List.replicate (loc.stop - loc.start) (if loc.offset = 0 then 5 else 7))

/-- One piece, one location, stored hash = SHA-1 of the empty stream. -/
def cexInfoA : VInfo where
  pieceLen := 1
  hashes := [sha1 []]
  locs := fun _ => [{ path := "fa", offset := 0, start := 0, stop := 1 }]

/-- Every read fails. -/
def cexReadA : ReadFn := fun _ => none

/-- One piece, two locations; the stored hash is the SHA-1 of just the
second location's byte. -/
def cexInfoB : VInfo where
  pieceLen := 2
  hashes := [sha1 [3]]
  locs := fun _ =>
    [{ path := "fb", offset := 0, start := 0, stop := 1 },
     { path := "fb", offset := 1, start := 1, stop := 2 }]

/-- The read at offset 0 fails; the read at offset 1 yields byte 3. -/
def cexReadB : ReadFn := fun loc => if loc.offset = 0 then none else some [3]

/-! ## Serialize (`Request::execute`, `Serialize` arm) -/

/-- Lower-case hex digit. -/
def hexChar (d : Nat) : Char :=
  if d = 0 then '0' else if d = 1 then '1' else if d = 2 then '2'
  else if d = 3 then '3' else if d = 4 then '4' else if d = 5 then '5'
  else if d = 6 then '6' else if d = 7 then '7' else if d = 8 then '8'
  else if d = 9 then '9' else if d = 10 then 'a' else if d = 11 then 'b'
  else if d = 12 then 'c' else if d = 13 then 'd' else if d = 14 then 'e'
  else if d = 15 then 'f' else '*'

/-- Modelled from the spec: `util::hash_to_id` — the lower-case
40-character hex rendering of a 20-byte SHA-1 hash. -/
def hashToId (hash : List Nat) : String :=
  String.mk (hash.flatMap fun b => [hexChar (b / 16), hexChar (b % 16)])

/-- `PathBuf::push` of a file name under a directory. -/
def pjoin (d n : String) : String := d ++ "/" ++ n

/-- A filesystem: file contents by absolute path. -/
def Fs : Type := String → Option (List Nat)

/-- Create or replace a file. -/
def fsSet (fs : Fs) (p : String) (v : List Nat) : Fs :=
  fun q => if q = p then some v else fs q

/-- Remove a file. -/
def fsDel (fs : Fs) (p : String) : Fs :=
  fun q => if q = p then none else fs q

/-- Failure-injection oracle for the three fallible steps of `Serialize`:
`open` of the temp file, `write_all` (failing after `k` bytes were
written), and the final `rename`. -/
structure SerOutcome where
  openFails : Bool
  writeFail : Option Nat
  renameFails : Bool

/-- The `Serialize` arm of `Request::execute`: open `<sd>/<hex-hash>.temp`
with `write(true).create(true)` — which does **not** truncate an existing
file — `write_all(data)` from position 0, then `fs::rename` onto
`<sd>/<hex-hash>`. Each step propagates its error via `?`. Returns whether
the arm succeeded, and the resulting filesystem. -/
def serialize (o : SerOutcome) (sd : String) (hash data : List Nat) (fs : Fs) :
    Bool × Fs :=
  let temp := pjoin sd (hashToId hash ++ ".temp")
  let actual := pjoin sd (hashToId hash)
  if o.openFails then (false, fs)
  else
    let t0 := (fs temp).getD []
    let fs1 := fsSet fs temp t0
    match o.writeFail with
    | some k => (false, fsSet fs1 temp (data.take k ++ t0.drop k))
    | none =>
      let written := data ++ t0.drop data.length
      let fs2 := fsSet fs1 temp written
      if o.renameFails then (false, fs2)
      else (true, fsSet (fsDel fs2 temp) actual written)

/-! ## `util::native::fallocate` -/

/-- Outcome of one `native_fallocate` syscall attempt: `ok` (returned 0)
or `err errno` (returned −1 with that `errno`, Linux numbering as in
`nix::errno::Errno`). -/
inductive SysRes
  | ok
  | err (errno : Nat)
deriving DecidableEq

/-- Linux errno values matched by `fallocate`. -/
def EINTR : Nat := 4

def ENOSPC : Nat := 28

def ENOSYS : Nat := 38

def EOPNOTSUPP : Nat := 95

/-- What `util::native::fallocate` returns: `ok true` for a native
allocation, `ok false` after the `set_len` fallback, `noSpace` for the
"Out of disk space!" error, `setLenFailed` when the fallback's
`f.set_len(len)?` propagates an error, `ioError e` for any other errno. -/
inductive FallocRes
  | ok (native : Bool)
  | noSpace
  | setLenFailed
  | ioError (errno : Nat)
deriving DecidableEq

/-- `util::native::fallocate`: loop over the syscall outcome sequence.
`EOPNOTSUPP`/`ENOSYS` fall back to `f.set_len(len)?` and return
`Ok(false)`; `ENOSPC` returns the out-of-space error; `EINTR` retries;
syscall success returns `Ok(true)`; any other errno is an error. `none`
means the outcome sequence was exhausted while retrying. -/
def fallocate (setLenOk : Bool) : List SysRes → Option FallocRes
  | [] => none
  | .ok :: _ => some (.ok true)
  | .err e :: rest =>
    if e = EOPNOTSUPP ∨ e = ENOSYS then
      if setLenOk then some (.ok false) else some .setLenFailed
    else if e = ENOSPC then some .noSpace
    else if e = EINTR then fallocate setLenOk rest
    else some (.ioError e)

/-- The claim's reading of `fallocate`: skip the leading `EINTR` outcomes
and decide entirely by the first non-`EINTR` one. -/
def fallocateSpec (setLenOk : Bool) (outcomes : List SysRes) : Option FallocRes :=
  match outcomes.dropWhile (fun r => decide (r = SysRes.err EINTR)) with
  | [] => none
  | .ok :: _ => some (.ok true)
  | .err e :: _ =>
    if e = EOPNOTSUPP ∨ e = ENOSYS then
      if setLenOk then some (.ok false) else some .setLenFailed
    else if e = ENOSPC then some .noSpace
    else some (.ioError e)

/-! ## Peer-wire messages (`torrent/peer/message.rs`)

`Buffer`/`Arc<Buffer>` payloads and the `Bitfield` byte image are byte
lists (`Bitfield::bytes()` is the list length, `byte_at i` its `i`-th
entry). The `Have` constructor is called `havePiece` (`have` is reserved). -/

inductive Message
  | handshake (rsv hash id : List Nat)
  | keepAlive
  | choke
  | unchoke
  | interested
  | uninterested
  | havePiece (piece : Nat)
  | bitfield (pf : List Nat)
  | request (index begin length : Nat)
  | piece (index begin length : Nat) (data : List Nat)
  | sharedPiece (index begin length : Nat) (data : List Nat)
  | cancel (index begin length : Nat)
  | port (p : Nat)
  | extension (id : Nat) (payload : List Nat)

/-- `Message::len`. -/
def Message.len : Message → Nat
  | .handshake .. => 68
  | .keepAlive => 4
  | .choke | .unchoke | .interested | .uninterested => 5
  | .port _ => 7
  | .havePiece _ => 9
  | .bitfield pf => 5 + pf.length
  | .request .. | .cancel .. => 17
  | .piece _ _ _ data => 13 + data.length
  | .sharedPiece _ _ _ data => 13 + data.length
  | .extension _ payload => 6 + payload.length

/-- The fixed-size-array invariants Rust's types give for free:
`rsv: [u8; 8]`, `hash: [u8; 20]`, `id: [u8; 20]`. -/
def Message.wf : Message → Prop
  | .handshake rsv hash id => rsv.length = 8 ∧ hash.length = 20 ∧ id.length = 20
  | _ => True

/-- `Message::encode`, as the byte sequence a successful call writes into
the buffer (the buffer itself is unbounded here; the source's only
explicit failure, the handshake peer-id length check, is mirrored). -/
def Message.encodeBytes : Message → Option (List Nat)
  | .handshake rsv hash id =>
    if id.length ≠ 20 then none
    else some (19 :: ("BitTorrent protocol").toList.map Char.toNat ++ rsv ++ hash ++ id)
  | .keepAlive => some (be32 0)
  | .choke => some (be32 1 ++ [0])
  | .unchoke => some (be32 1 ++ [1])
  | .interested => some (be32 1 ++ [2])
  | .uninterested => some (be32 1 ++ [3])
  | .port p => some (be32 3 ++ [9] ++ be16 p)
  | .havePiece idx => some (be32 5 ++ [4] ++ be32 idx)
  | .bitfield pf => some (be32 (1 + pf.length) ++ [5] ++ pf)
  | .request index begin length =>
    some (be32 13 ++ [6] ++ be32 index ++ be32 begin ++ be32 length)
  | .piece index begin length _ =>
    some (be32 (9 + length) ++ [7] ++ be32 index ++ be32 begin)
  | .sharedPiece index begin length _ =>
    some (be32 (9 + length) ++ [7] ++ be32 index ++ be32 begin)
  | .cancel index begin length =>
    some (be32 13 ++ [8] ++ be32 index ++ be32 begin ++ be32 length)
  | .extension id payload =>
    some (be32 (2 + payload.length) ++ [20] ++ [id] ++ payload)

/-! ## Delete (`Request::execute`, `Delete` arm) -/

/-- The observable operations the `Delete` arm attempts, in order:
`fs::remove_file` of a session file (`.ok()`, missing ignored),
`FileCache::remove_file` (cache eviction only), `fs::remove_file` of a
data file (error logged and ignored), and `fs::remove_dir` of the
top-level torrent directory (`.ok()`, errors ignored). -/
inductive DelOp
  | remSessionFile (p : String)
  | evict (p : String)
  | remDiskFile (p : String)
  | remDir (p : String)
deriving DecidableEq

/-- The engine-visible state `Delete` touches, all keyed by absolute
path: session-directory files, File Cache entries, data files on disk,
and directories. -/
structure DelSt where
  session : String → Bool
  cache : String → Bool
  disk : String → Bool
  dirs : String → Bool

/-- Mark a path absent (removal with a missing path being a no-op, as all
of `Delete`'s removals ignore errors). -/
def setOff (f : String → Bool) (p : String) : String → Bool :=
  fun q => if q = p then false else f q

/-- A relative file path as its components, joined under a base. -/
def pathOf (base : String) (f : List String) : String := f.foldl pjoin base

/-- The per-file loop body of the `Delete` arm: evict the path from the
File Cache always, and `fs::remove_file` it iff `artifacts`. -/
def delFileStep (base : String) (artifacts : Bool) (acc : DelSt) (f : List String) : DelSt :=
  { acc with
    cache := setOff acc.cache (pathOf base f),
    disk := if artifacts then setOff acc.disk (pathOf base f) else acc.disk }

/-- The `Delete` arm of `Request::execute`: remove
`<sd>/<hex-hash>` and — via `set_extension("torrent")` on that dot-free
name — `<sd>/<hex-hash>.torrent`, both ignoring missing files; for each
listed file evict it from the File Cache and, iff `artifacts`, delete it
on disk (errors logged); finally, whenever the file list is nonempty,
attempt `fs::remove_dir` on the first file's first path component under
the base (removal succeeds only on an empty directory, per the `dirEmpty`
oracle, and errors are ignored). Returns the state and the trace of
attempted operations. -/
def deleteExec (dd sd : String) (dirEmpty : Bool) (hash : List Nat)
    (files : List (List String)) (pathOv : Option String) (artifacts : Bool)
    (st : DelSt) : DelSt × List DelOp :=
  let sid := pjoin sd (hashToId hash)
  let storrent := pjoin sd (hashToId hash ++ ".torrent")
  let st1 : DelSt := { st with session := setOff (setOff st.session sid) storrent }
  let base := pathOv.getD dd
  let st2 : DelSt := files.foldl (delFileStep base artifacts) st1
  let fileOps := files.flatMap fun f =>
    DelOp.evict (pathOf base f) ::
      (if artifacts then [DelOp.remDiskFile (pathOf base f)] else [])
  match files.head? with
  | none => (st2, DelOp.remSessionFile sid :: DelOp.remSessionFile storrent :: fileOps)
  | some f =>
    let dirp := pjoin base (f.headD "")
    let st3 : DelSt := if dirEmpty then { st2 with dirs := setOff st2.dirs dirp } else st2
    (st3, DelOp.remSessionFile sid :: DelOp.remSessionFile storrent ::
      (fileOps ++ [DelOp.remDir dirp]))

/-- An all-present engine state, for concrete runs. -/
def fullSt : DelSt where
  session := fun _ => true
  cache := fun _ => true
  disk := fun _ => true
  dirs := fun _ => true

/-! ## Download response construction (`Request::download`) -/

/-- An `http_range::HttpRange`: `start` and `length` in bytes (`u64`). -/
structure HRange where
  start : Nat
  length : Nat
deriving DecidableEq

/-- The CRLF separator `lines.join("\r\n")` inserts. -/
def crlf : List Char := ['\r', '\n']

/-- `Path::new(&path).file_name()…`: the last component of the path. -/
def basename (p : List Char) : List Char :=
  ((p.reverse.takeWhile fun c => !(c == '/')).reverse)

/-- The header lines `Request::download` formats, by case: ranged with a
single range (collapsed to the non-multipart form), ranged with several
ranges (multipart), or unranged. Numbers render via `natStr` (`{}` for
`u64`); the final `"\r\n"` line plus the join yield the blank line that
terminates the header block. -/
def downloadLines (ranges : List HRange) (ranged : Bool) (len : Nat) (path : List Char) :
    List (List Char) :=
  if ranged then
    if ranges.length = 1 then
      let r := ranges.headD ⟨0, 0⟩
      [("HTTP/1.1 206 Partial Content").toList,
       ("Content-Length: ").toList ++ natStr r.length,
       ("Content-Range: bytes ").toList ++ natStr r.start ++ ['-'] ++
         natStr (r.start + r.length - 1) ++ ['/'] ++ natStr len,
       ("Accept-Ranges: bytes").toList,
       ("Content-Type: application/octet-stream;").toList,
       ("Connection: Close").toList,
       crlf]
    else
      [("HTTP/1.1 206 Partial Content").toList,
       ("Accept-Ranges: bytes").toList,
       ("Content-Type: multipart/byteranges; boundary=").toList ++ mpBoundary,
       ("Connection: Close").toList,
       crlf]
  else
    [("HTTP/1.1 200 OK").toList,
     ("Accept-Ranges: bytes").toList,
     ("Content-Length: ").toList ++ natStr len,
     ("Content-Type: application/octet-stream").toList,
     ("Content-Disposition: attachment; filename=").toList ++ ['"'] ++ basename path ++ ['"'],
     ("Connection: Close").toList,
     crlf]

/-- `lines.join("\r\n")`. -/
def joinCRLF (lines : List (List Char)) : List Char := List.intercalate crlf lines

/-- The header block `Request::download` copies into the bounce buffer. -/
def downloadHeader (ranges : List HRange) (ranged : Bool) (len : Nat) (path : List Char) :
    List Char :=
  joinCRLF (downloadLines ranges ranged len path)

/-- The `ranged` flag stored in the constructed `Download` request: a
ranged request with exactly one range is demoted to `ranged = false`. -/
def downloadRangedFinal (ranges : List HRange) (ranged : Bool) : Bool :=
  ranged && !(ranges.length == 1)

/-- The range list stored in the constructed `Download` request: when the
request stays ranged (several ranges), a zero-length sentinel is
prepended so the first loop iteration formats the first part header. -/
def downloadRangesFinal (ranges : List HRange) (ranged : Bool) : List HRange :=
  if downloadRangedFinal ranges ranged then ⟨0, 0⟩ :: ranges else ranges

/-! ## The Download state machine (`Request::execute`, `Download` arm) -/

/-- Byte rendering of header text. -/
def strBytes (l : List Char) : List Nat := l.map Char.toNat

/-- The multipart part header the loop formats before each range:
`"\r\n--B" / "Content-Type: application/octet-stream" /
"Content-Range: bytes S-E/L" / "\r\n"`, joined with CRLF. -/
def partHeader (r : HRange) (fileLen : Nat) : List Char :=
  List.intercalate crlf
    [crlf ++ ("--").toList ++ mpBoundary,
     ("Content-Type: application/octet-stream").toList,
     ("Content-Range: bytes ").toList ++ natStr r.start ++ ['-'] ++
       natStr (r.start + r.length - 1) ++ ['/'] ++ natStr fileLen,
     crlf]

/-- The closing boundary `"\r\n--B--"`. -/
def mpCloser : List Char := crlf ++ ("--").toList ++ mpBoundary ++ ("--").toList

/-- The fields of a `Request::Download` job the loop mutates. The client
socket and reactor id are omitted: the model fixes the socket as always
writable (every `awrite` completes), under which the emitted byte stream
is fully determined; `Blocked`/`Paused` continuations carry the state
unchanged and so do not alter the stream. -/
structure DlSt where
  ranges : List HRange
  rangeIdx : Nat
  writing : Bool
  buf : List Nat
  bufIdx : Nat
  bufMax : Nat
  ranged : Bool
  fileLen : Nat

/-- `(&mut buf[..data.len()]).copy_from_slice(&data)`. -/
def bufOverwrite (buf data : List Nat) : List Nat := data ++ buf.drop data.length

/-- The file bytes at `[off, off + n)` (reads always succeed). -/
def fileRange (file : Nat → Nat) (off n : Nat) : List Nat :=
  (List.range n).map fun i => file (off + i)

/-- Result of one iteration of the Download while-loop: `done`, or a
continuation state together with the bytes written to the socket. -/
inductive DlStep
  | done
  | cont (emitted : List Nat) (st : DlSt)

/-- One iteration of the Download while-loop of `Request::execute`:
drain `buf[buf_idx..buf_max]` when `writing`; finish when all ranges are
consumed; on a zero-length current range advance `range_idx` and format
the next part header (or the closing boundary when ranged); otherwise read
up to 16 KiB of the current range into the buffer and consume it. -/
def dlStep (file : Nat → Nat) (st : DlSt) : DlStep :=
  if st.writing then
    .cont ((st.buf.drop st.bufIdx).take (st.bufMax - st.bufIdx)) { st with writing := false }
  else if st.rangeIdx = st.ranges.length then .done
  else if (st.ranges.getD st.rangeIdx ⟨0, 0⟩).length = 0 then
    if st.rangeIdx + 1 = st.ranges.length then
      if st.ranged then
        .cont [] { st with
          rangeIdx := st.rangeIdx + 1,
          buf := bufOverwrite st.buf (strBytes mpCloser),
          bufIdx := 0, bufMax := mpCloser.length, writing := true }
      else .cont [] { st with rangeIdx := st.rangeIdx + 1 }
    else
      .cont [] { st with
        rangeIdx := st.rangeIdx + 1,
        buf := bufOverwrite st.buf
          (strBytes (partHeader (st.ranges.getD (st.rangeIdx + 1) ⟨0, 0⟩) st.fileLen)),
        bufIdx := 0,
        bufMax := (partHeader (st.ranges.getD (st.rangeIdx + 1) ⟨0, 0⟩) st.fileLen).length,
        writing := true }
  else
    .cont [] { st with
      ranges := st.ranges.set st.rangeIdx
        ⟨(st.ranges.getD st.rangeIdx ⟨0, 0⟩).start +
            min (st.ranges.getD st.rangeIdx ⟨0, 0⟩).length 16384,
          (st.ranges.getD st.rangeIdx ⟨0, 0⟩).length -
            min (st.ranges.getD st.rangeIdx ⟨0, 0⟩).length 16384⟩,
      buf := bufOverwrite st.buf
        (fileRange file (st.ranges.getD st.rangeIdx ⟨0, 0⟩).start
          (min (st.ranges.getD st.rangeIdx ⟨0, 0⟩).length 16384)),
      bufIdx := 0,
      bufMax := min (st.ranges.getD st.rangeIdx ⟨0, 0⟩).length 16384,
      writing := true }

/-- Run the Download loop to `Done`, collecting the bytes written to the
socket; `none` when `fuel` iterations do not reach `Done`. -/
def dlRun (file : Nat → Nat) : Nat → DlSt → Option (List Nat)
  | 0, _ => none
  | fuel + 1, st =>
    match dlStep file st with
    | .done => some []
    | .cont em st' => (dlRun file fuel st').map (em ++ ·)

/-- The Download job state `Request::download` constructs for a
`ranged = true` request: headers in the bounce buffer, and — when several
ranges keep it ranged — the zero-length sentinel range prepended. -/
def dlInit (ranges : List HRange) (len : Nat) (path : List Char) : DlSt where
  ranges := downloadRangesFinal ranges true
  rangeIdx := 0
  writing := true
  buf := bufOverwrite (List.replicate 16384 0)
    (strBytes (downloadHeader ranges true len path))
  bufIdx := 0
  bufMax := (downloadHeader ranges true len path).length
  ranged := downloadRangedFinal ranges true
  fileLen := len

/-- The exact multipart byte stream claim C5 describes: for each range its
part header then its file bytes, closed by the trailer. -/
def multipartBody (file : Nat → Nat) (ranges : List HRange) (len : Nat) : List Nat :=
  (ranges.flatMap fun r =>
    strBytes (partHeader r len) ++ fileRange file r.start r.length) ++ strBytes mpCloser

/-- `Emits st bytes st'`: from `st` the loop deterministically writes
`bytes` and continues as `st'`. -/
def Emits (file : Nat → Nat) (st : DlSt) (bytes : List Nat) (st' : DlSt) : Prop :=
  ∀ fuel out, dlRun file fuel st' = some out → ∃ g, dlRun file g st = some (bytes ++ out)

/-- `EmitsDone st bytes`: from `st` the loop writes `bytes` and reaches
`Done`. -/
def EmitsDone (file : Nat → Nat) (st : DlSt) (bytes : List Nat) : Prop :=
  ∃ fuel, dlRun file fuel st = some bytes

-- ===== theorems =====

/-! ## Buffer-slice lemmas -/

theorem writeSlice_length (buf bs : List Nat) (start : Nat)
    (h : start + bs.length ≤ buf.length) :
    (writeSlice buf start bs).length = buf.length := by
  have h1 : start ≤ buf.length := le_trans (Nat.le_add_right _ _) h
  simp [writeSlice, List.length_take, Nat.min_eq_left h1]
  omega

theorem listExtract_writeSlice (buf bs : List Nat) (start : Nat)
    (h : start + bs.length ≤ buf.length) :
    listExtract (writeSlice buf start bs) start (start + bs.length) = bs := by
  have h1 : start ≤ buf.length := le_trans (Nat.le_add_right _ _) h
  have hA : (buf.take start).length = start := by
    simp [List.length_take, Nat.min_eq_left h1]
  unfold listExtract writeSlice
  rw [List.append_assoc, Nat.add_sub_cancel_left]
  nth_rewrite 1 [← hA]
  rw [List.drop_left, List.take_left]

/-! ## The `ValidatePiece` inner loop hashes exactly the successful reads -/

theorem vpGo_spec (read : ReadFn) (hwf : ReadWF read) :
    ∀ (locs : List VLoc) (buf acc : List Nat),
      (∀ loc ∈ locs, loc.start ≤ loc.stop ∧ loc.stop ≤ buf.length) →
      (vpGo read locs buf acc).2 = acc ++ concatReads read locs ∧
        (vpGo read locs buf acc).1.length = buf.length := by
  intro locs
  induction locs with
  | nil => intro buf acc _; simp [vpGo, concatReads]
  | cons loc ls ih =>
    intro buf acc hb
    have hloc := hb loc (List.mem_cons_self _ _)
    cases hread : read loc with
    | none =>
      have hrest := ih buf acc (fun l hl => hb l (List.mem_cons_of_mem _ hl))
      simp [vpGo, hread, concatReads, hrest.1, hrest.2]
    | some bs =>
      have hlen := hwf loc bs hread
      have hfit : loc.start + bs.length ≤ buf.length := by omega
      have hwl := writeSlice_length buf bs loc.start hfit
      have hex : listExtract (writeSlice buf loc.start bs) loc.start loc.stop = bs := by
        have hst : loc.stop = loc.start + bs.length := by omega
        rw [hst]; exact listExtract_writeSlice buf bs loc.start hfit
      have ihh := ih (writeSlice buf loc.start bs) (acc ++ bs)
        (fun l hl => by rw [hwl]; exact hb l (List.mem_cons_of_mem _ hl))
      simp [vpGo, hread, concatReads, hex, ihh.1, hwl, ihh.2]

/-! ## The `Validate` inner loop hashes the prefix before the first failure -/

theorem vvGo_spec (read : ReadFn) (hwf : ReadWF read) :
    ∀ (locs : List VLoc) (buf acc : List Nat),
      (∀ loc ∈ locs, loc.start ≤ loc.stop ∧ loc.stop ≤ buf.length) →
      (vvGo read locs buf acc true).2.2 = (readPrefix read locs).1 ∧
        (vvGo read locs buf acc true).2.1 = acc ++ (readPrefix read locs).2 ∧
        (vvGo read locs buf acc true).1.length = buf.length := by
  intro locs
  induction locs with
  | nil => intro buf acc _; simp [vvGo, readPrefix]
  | cons loc ls ih =>
    intro buf acc hb
    have hloc := hb loc (List.mem_cons_self _ _)
    cases hread : read loc with
    | none =>
      have hstop : ∀ l bufx accx, vvGo read l bufx accx false = (bufx, accx, false) := by
        intro l bufx accx; cases l <;> simp [vvGo]
      simp [vvGo, hread, readPrefix, hstop]
    | some bs =>
      have hlen := hwf loc bs hread
      have hfit : loc.start + bs.length ≤ buf.length := by omega
      have hwl := writeSlice_length buf bs loc.start hfit
      have hex : listExtract (writeSlice buf loc.start bs) loc.start loc.stop = bs := by
        have hst : loc.stop = loc.start + bs.length := by omega
        rw [hst]; exact listExtract_writeSlice buf bs loc.start hfit
      have ihh := ih (writeSlice buf loc.start bs) (acc ++ bs)
        (fun l hl => by rw [hwl]; exact hb l (List.mem_cons_of_mem _ hl))
      simp [vvGo, hread, readPrefix, hex, ihh.1, ihh.2.1, hwl, ihh.2.2]

/-! ## Per-piece characterizations -/

theorem validatePieceExec_spec (h : DigestFn) (read : ReadFn) (info : VInfo)
    (buf : List Nat) (piece : Nat) (hwf : ReadWF read)
    (hb : ∀ loc ∈ info.locs piece, loc.start ≤ loc.stop ∧ loc.stop ≤ buf.length) :
    (validatePieceExec h read info buf piece).1 = pieceValidP h read info piece ∧
      (validatePieceExec h read info buf piece).2.length = buf.length := by
  have hs := vpGo_spec read hwf (info.locs piece) buf [] hb
  unfold validatePieceExec pieceValidP
  cases hg : vpGo read (info.locs piece) buf [] with
  | mk buf' acc =>
    rw [hg] at hs
    simp at hs
    simp [hs.1, hs.2]

theorem validateStepExec_spec (h : DigestFn) (read : ReadFn) (info : VInfo)
    (buf : List Nat) (idx : Nat) (hwf : ReadWF read)
    (hb : ∀ loc ∈ info.locs idx, loc.start ≤ loc.stop ∧ loc.stop ≤ buf.length) :
    (validateStepExec h read info buf idx).1 = pieceInvalidP h read info idx ∧
      (validateStepExec h read info buf idx).2.length = buf.length := by
  have hs := vvGo_spec read hwf (info.locs idx) buf [] hb
  unfold validateStepExec pieceInvalidP
  cases hg : vvGo read (info.locs idx) buf [] true with
  | mk buf' rest =>
    cases rest with
    | mk acc valid =>
      rw [hg] at hs
      simp at hs
      cases hrp : readPrefix read (info.locs idx) with
      | mk ok stream =>
        rw [hrp] at hs
        simp at hs
        simp [hs.1, hs.2.1, hs.2.2]

/-! ## The `Validate` loop, chunked arbitrarily, accumulates `invalidFrom` -/

theorem invalidFrom_add (h : DigestFn) (read : ReadFn) (info : VInfo) :
    ∀ (a idx b : Nat),
      invalidFrom h read info idx (a + b) =
        invalidFrom h read info idx a ++ invalidFrom h read info (idx + a) b := by
  intro a
  induction a with
  | zero => intro idx b; simp [invalidFrom]
  | succ a ih =>
    intro idx b
    have hshift : a + 1 + b = (a + b) + 1 := by omega
    rw [hshift]
    simp only [invalidFrom, ih (idx + 1) b, List.append_assoc]
    have : idx + 1 + a = idx + (a + 1) := by omega
    rw [this]

theorem validateGo_spec (h : DigestFn) (read : ReadFn) (info : VInfo)
    (hwf : ReadWF read) (hg : GoodLocs info) :
    ∀ (n idx : Nat) (invalid buf : List Nat),
      buf.length = info.pieceLen → idx ≤ info.pieces →
      (validateGo h read info n idx invalid buf).1 = min (idx + n) info.pieces ∧
        (validateGo h read info n idx invalid buf).2.1 =
          invalid ++ invalidFrom h read info idx (min (idx + n) info.pieces - idx) ∧
        (validateGo h read info n idx invalid buf).2.2.length = info.pieceLen := by
  intro n
  induction n with
  | zero =>
    intro idx invalid buf hb hle
    simp [validateGo, Nat.min_eq_left hle, invalidFrom]
    exact hb
  | succ n ih =>
    intro idx invalid buf hb hle
    by_cases hlt : idx < info.pieces
    · have hbs : ∀ loc ∈ info.locs idx, loc.start ≤ loc.stop ∧ loc.stop ≤ buf.length := by
        intro loc hl
        have := hg idx loc hl
        omega
      have hstep := validateStepExec_spec h read info buf idx hwf hbs
      cases hse : validateStepExec h read info buf idx with
      | mk bad buf' =>
        rw [hse] at hstep
        simp at hstep
        have ihh := ih (idx + 1) (invalid ++ if bad then [idx] else []) buf'
          (by rw [hstep.2, hb]) (by omega)
        have hred : validateGo h read info (n + 1) idx invalid buf =
            validateGo h read info n (idx + 1) (invalid ++ if bad then [idx] else []) buf' := by
          simp [validateGo, hlt, hse]
        rw [hred]
        refine ⟨?_, ?_, ihh.2.2⟩
        · rw [ihh.1]; omega
        · rw [ihh.2.1, hstep.1]
          have hm : min (idx + (n + 1)) info.pieces - idx =
              (min (idx + 1 + n) info.pieces - (idx + 1)) + 1 := by omega
          rw [hm]
          simp only [invalidFrom, List.append_assoc]
    · have hidx : idx = info.pieces := by omega
      simp [validateGo, hlt, hidx, invalidFrom]
      exact hb

theorem runValidate_spec (h : DigestFn) (read : ReadFn) (info : VInfo)
    (hwf : ReadWF read) (hg : GoodLocs info) :
    ∀ (schedule : List Nat) (idx : Nat) (invalid buf res : List Nat),
      buf.length = info.pieceLen → idx ≤ info.pieces →
      runValidate h read info schedule idx invalid buf = some res →
      res = invalid ++ invalidFrom h read info idx (info.pieces - idx) := by
  intro schedule
  induction schedule with
  | nil => intro idx invalid buf res _ _ hrun; simp [runValidate] at hrun
  | cons j rest ih =>
    intro idx invalid buf res hb hle hrun
    have hgo := validateGo_spec h read info hwf hg j idx invalid buf hb hle
    rw [runValidate, validateSlice] at hrun
    cases hge : validateGo h read info j idx invalid buf with
    | mk idx' r2 =>
      cases r2 with
      | mk invalid' buf' =>
        rw [hge] at hrun hgo
        simp at hgo
        obtain ⟨hg1, hg2, hg3⟩ := hgo
        by_cases hdone : idx' = info.pieces
        · simp [hdone] at hrun
          have hminp : min (idx + j) info.pieces = info.pieces := by
            rw [← hg1]; exact hdone
          rw [← hrun, hg2, hminp]
        · simp [hdone] at hrun
          have hlt2 : idx + j < info.pieces := by omega
          have hidxe : idx' = idx + j := by omega
          have hres := ih idx' invalid' buf' res (by rw [hg3]) (by omega) hrun
          rw [hres, hg2, hidxe]
          have hmin2 : min (idx + j) info.pieces = idx + j := by omega
          rw [hmin2]
          have hj : idx + j - idx = j := by omega
          rw [hj]
          have hsplit : info.pieces - idx = j + (info.pieces - (idx + j)) := by omega
          rw [hsplit, invalidFrom_add h read info j idx (info.pieces - (idx + j)),
            List.append_assoc]

/-! ## Remaining pure-spec bridges -/

theorem invalidFrom_eq_filter (h : DigestFn) (read : ReadFn) (info : VInfo) :
    ∀ (k idx : Nat),
      invalidFrom h read info idx k =
        (List.range' idx k).filter (pieceInvalidP h read info) := by
  intro k
  induction k with
  | zero => intro idx; simp [invalidFrom]
  | succ k ih =>
    intro idx
    rw [List.range'_succ, List.filter_cons]
    cases hp : pieceInvalidP h read info idx <;>
      simp [invalidFrom, hp, ih (idx + 1)]

theorem readPrefix_allOk (read : ReadFn) :
    ∀ locs, (∀ loc ∈ locs, (read loc).isSome) →
      readPrefix read locs = (true, concatReads read locs) := by
  intro locs
  induction locs with
  | nil => intro _; simp [readPrefix, concatReads]
  | cons loc ls ih =>
    intro hall
    have h1 := hall loc (List.mem_cons_self _ _)
    cases hread : read loc with
    | none => rw [hread] at h1; simp at h1
    | some bs =>
      simp [readPrefix, concatReads, hread,
        ih (fun l hl => hall l (List.mem_cons_of_mem _ hl))]

theorem pieceInvalidP_of_allOk (h : DigestFn) (read : ReadFn) (info : VInfo) (p : Nat)
    (hall : ∀ loc ∈ info.locs p, (read loc).isSome) :
    pieceInvalidP h read info p = !pieceValidP h read info p := by
  unfold pieceInvalidP pieceValidP
  rw [readPrefix_allOk read (info.locs p) hall]
  simp [bne]

theorem wRead_wf : ReadWF wRead := by
  intro loc bs hbs
  simp [wRead] at hbs
  rw [← hbs]
  simp

theorem wInfo_good : GoodLocs wInfo := by
  intro p loc hl
  simp [wInfo] at hl
  rw [hl]
  simp [wInfo]

/-! ## Claims C1, C2, C8 -/

/-- C8: the terminal `ValidationComplete` of a `Validate` request chained
through its `Update` continuations has the same `invalid` list for every
slicing of the work: any two schedules of loop-iteration budgets (and any
two starting scratch buffers) that reach a terminal yield equal lists. -/
theorem c8_validate_slicing_invariant (h : DigestFn) (read : ReadFn) (info : VInfo)
    (hwf : ReadWF read) (hg : GoodLocs info)
    (s₁ s₂ buf₁ buf₂ r₁ r₂ : List Nat)
    (hb₁ : buf₁.length = info.pieceLen) (hb₂ : buf₂.length = info.pieceLen)
    (e₁ : runValidate h read info s₁ 0 [] buf₁ = some r₁)
    (e₂ : runValidate h read info s₂ 0 [] buf₂ = some r₂) : r₁ = r₂ := by
  have h1 := runValidate_spec h read info hwf hg s₁ 0 [] buf₁ r₁ hb₁ (Nat.zero_le _) e₁
  have h2 := runValidate_spec h read info hwf hg s₂ 0 [] buf₂ r₂ hb₂ (Nat.zero_le _) e₂
  rw [h1, h2]

/-- C8 witness: a 2-piece torrent validated in one slice of 2 iterations
and in two slices of 1 iteration each terminates both times, and the
theorem applies to equate the results. -/
theorem c8_witness :
    runValidate sha1 wRead wInfo [2] 0 [] [0] = some [1] ∧
      runValidate sha1 wRead wInfo [1, 1] 0 [] [0] = some [1] ∧ ([1] : List Nat) = [1] := by
  refine ⟨by decide, by decide, ?_⟩
  exact c8_validate_slicing_invariant sha1 wRead wInfo wRead_wf wInfo_good
    [2] [1, 1] [0] [0] [1] [1] (by decide) (by decide) (by decide) (by decide)

/-- C1 (amended): the terminal `ValidationComplete` of a chained `Validate`
run lists exactly the pieces whose location-prefix has a failed read or
whose digest over that prefix mismatches `info.hashes[p]`; this equals the
set of pieces on which `ValidatePiece` returns `valid=false` whenever every
read of every piece's locations succeeds (but not in general: `Validate`
marks a piece with a failed read invalid, while `ValidatePiece` merely
skips the failed location's bytes). -/
theorem c1_validate_complete_invalid (h : DigestFn) (read : ReadFn) (info : VInfo)
    (hwf : ReadWF read) (hg : GoodLocs info) (schedule : List Nat) (buf res : List Nat)
    (hb : buf.length = info.pieceLen)
    (e : runValidate h read info schedule 0 [] buf = some res) :
    res = (List.range info.pieces).filter (pieceInvalidP h read info) ∧
      ((∀ p, p < info.pieces → ∀ loc ∈ info.locs p, (read loc).isSome) →
        ∀ bufP, bufP.length = info.pieceLen →
          res = (List.range info.pieces).filter
            (fun p => !(validatePieceExec h read info bufP p).1)) := by
  have h1 := runValidate_spec h read info hwf hg schedule 0 [] buf res hb (Nat.zero_le _) e
  have h2 : res = (List.range info.pieces).filter (pieceInvalidP h read info) := by
    rw [h1, invalidFrom_eq_filter, List.range_eq_range']
    simp
  refine ⟨h2, fun hall bufP hbP => ?_⟩
  rw [h2]
  apply List.filter_congr
  intro p hp
  have hplt : p < info.pieces := List.mem_range.mp hp
  have hbs : ∀ loc ∈ info.locs p, loc.start ≤ loc.stop ∧ loc.stop ≤ bufP.length := by
    intro loc hl
    have := hg p loc hl
    omega
  rw [(validatePieceExec_spec h read info bufP p hwf hbs).1,
    pieceInvalidP_of_allOk h read info p (hall p hplt)]

/-- C1 witness: on the 2-piece torrent with all reads succeeding, the
chained run terminates with `[1]`, which the theorem identifies with the
`Validate`-invalid filter. -/
theorem c1_witness :
    ([1] : List Nat) = (List.range wInfo.pieces).filter (pieceInvalidP sha1 wRead wInfo) :=
  (c1_validate_complete_invalid sha1 wRead wInfo wRead_wf wInfo_good
    [2] [0] [1] (by decide) (by decide)).1

/-- C1 counterexample: one piece whose single location fails to read and
whose stored hash is the SHA-1 of the empty stream — the chained `Validate`
run reports `invalid = [0]`, yet `ValidatePiece` on piece 0 returns
`valid = true`, so the terminal `invalid` list is not the set of pieces on
which `ValidatePiece` returns false. -/
theorem c1_counterexample :
    runValidate sha1 cexReadA cexInfoA [1] 0 [] [0] = some [0] ∧
      (validatePieceExec sha1 cexReadA cexInfoA [0] 0).1 = true := by
  exact ⟨by decide, by decide⟩

/-- C2 (amended): `ValidatePiece` returns `valid=true` iff the SHA-1 digest
over the concatenation of the *successful* reads at the piece's locations
equals `info.hashes[p]`; a failed read contributes no bytes to the digest
and does not by itself force `valid=false`. -/
theorem c2_validate_piece_valid_iff (h : DigestFn) (read : ReadFn) (info : VInfo)
    (buf : List Nat) (piece : Nat) (hwf : ReadWF read)
    (hb : ∀ loc ∈ info.locs piece, loc.start ≤ loc.stop ∧ loc.stop ≤ buf.length) :
    (validatePieceExec h read info buf piece).1 = true ↔
      h (concatReads read (info.locs piece)) = info.hashes.getD piece [] := by
  rw [(validatePieceExec_spec h read info buf piece hwf hb).1]
  unfold pieceValidP
  simp

/-- C2 witness: on the 2-piece torrent, piece 0's digest over its read
bytes equals the stored hash and the theorem yields `valid = true`. -/
theorem c2_witness : (validatePieceExec sha1 wRead wInfo [0] 0).1 = true :=
  (c2_validate_piece_valid_iff sha1 wRead wInfo [0] 0 wRead_wf (by decide)).mpr (by decide)

/-- C2 counterexample: a piece with two locations where the first read
fails and the second succeeds with the byte the stored hash was computed
from — `ValidatePiece` returns `valid = true` although a read of one of the
piece's locations failed, refuting "whenever any read of a location of
piece p fails, the response has valid=false". -/
theorem c2_counterexample :
    (validatePieceExec sha1 cexReadB cexInfoB [0, 0] 0).1 = true ∧
      cexReadB { path := "fb", offset := 0, start := 0, stop := 1 } = none ∧
      ({ path := "fb", offset := 0, start := 0, stop := 1 } : VLoc) ∈ cexInfoB.locs 0 := by
  exact ⟨by decide, by decide, by decide⟩

/-! ## Claim C6: the multipart boundary literal -/

/-- C6 counterexample: `MP_BOUNDARY` (`"qxyllcqgNchqyob"`) does not have
length 16. -/
theorem c6_counterexample : mpBoundary.length ≠ 16 := by decide

/-- C6 (amended): the multipart boundary used in every multipart
byteranges response is the single fixed literal `MP_BOUNDARY`, of length
15, consisting only of alphanumeric characters. -/
theorem c6_boundary : mpBoundary.length = 15 ∧ mpBoundary.all Char.isAlphanum = true := by
  decide

/-! ## Claim C3: Serialize -/

/-- C3 (amended): on success, `<sd>/<hex(h)>` holds `D` followed by
whatever tail a pre-existing `<hex(h)>.temp` had beyond `|D|` (exactly `D`
when no longer stale temp existed, since the open does not truncate), and
no `.temp` file remains; if the open or the write fails, the request
returns an error and `<sd>/<hex(h)>` is unchanged. -/
theorem c3_serialize (o : SerOutcome) (sd : String) (hash data : List Nat) (fs : Fs) :
    ((o.openFails = false ∧ o.writeFail = none ∧ o.renameFails = false) →
      (serialize o sd hash data fs).1 = true ∧
        (serialize o sd hash data fs).2 (pjoin sd (hashToId hash)) =
          some (data ++
            ((fs (pjoin sd (hashToId hash ++ ".temp"))).getD []).drop data.length) ∧
        (serialize o sd hash data fs).2 (pjoin sd (hashToId hash ++ ".temp")) = none) ∧
    ((o.openFails = true ∨ o.writeFail ≠ none) →
      (serialize o sd hash data fs).1 = false ∧
        (serialize o sd hash data fs).2 (pjoin sd (hashToId hash)) =
          fs (pjoin sd (hashToId hash))) := by
  have h5 : (".temp").length = 5 := rfl
  have hne : pjoin sd (hashToId hash) ≠ pjoin sd (hashToId hash ++ ".temp") := by
    intro he
    have hlen := congrArg String.length he
    simp [pjoin, String.length_append, h5] at hlen
  obtain ⟨op, wf, rf⟩ := o
  constructor
  · rintro ⟨h1, h2, h3⟩
    simp only at h1 h2 h3
    subst h1; subst h2; subst h3
    refine ⟨rfl, ?_, ?_⟩
    · simp [serialize, fsSet, fsDel]
    · simp [serialize, fsSet, fsDel, hne, Ne.symm hne]
  · intro hf
    simp only at hf
    rcases hf with h1 | h2
    · subst h1
      exact ⟨rfl, rfl⟩
    · cases hwf : wf with
      | none => exact absurd hwf h2
      | some k =>
        subst hwf
        cases op <;>
          simp [serialize, fsSet, fsDel, hne, Ne.symm hne]

/-- C3 witness: a successful Serialize with no pre-existing temp file
leaves exactly the data at `<sd>/<hex(h)>` and no temp file. -/
theorem c3_witness :
    (serialize ⟨false, none, false⟩ "sd" (List.replicate 20 0) [2] (fun _ => none)).1 = true ∧
      (serialize ⟨false, none, false⟩ "sd" (List.replicate 20 0) [2] (fun _ => none)).2
        (pjoin "sd" (hashToId (List.replicate 20 0))) = some [2] := by
  have h := (c3_serialize ⟨false, none, false⟩ "sd" (List.replicate 20 0) [2]
    (fun _ => none)).1 ⟨rfl, rfl, rfl⟩
  exact ⟨h.1, h.2.1.trans (by simp)⟩

/-- C3 counterexample: with a stale `<hex(h)>.temp` holding `[1, 7]`, a
fully successful `Serialize` of `D = [1]` leaves `<sd>/<hex(h)>` holding
`[1, 7]`, not exactly `D` — the non-truncating open lets the stale tail
survive the rename. -/
theorem c3_counterexample :
    (serialize ⟨false, none, false⟩ "sd" (List.replicate 20 0) [1]
        (fun p => if p = pjoin "sd" (hashToId (List.replicate 20 0) ++ ".temp")
          then some [1, 7] else none)).1 = true ∧
      (serialize ⟨false, none, false⟩ "sd" (List.replicate 20 0) [1]
        (fun p => if p = pjoin "sd" (hashToId (List.replicate 20 0) ++ ".temp")
          then some [1, 7] else none)).2
        (pjoin "sd" (hashToId (List.replicate 20 0))) = some [1, 7] := by
  exact ⟨by decide, by decide⟩

/-! ## Claim C9: fallocate -/

/-- C9: `fallocate` retries `EINTR` and then decides by the first
non-`EINTR` syscall outcome: success yields `Ok(true)`;
`EOPNOTSUPP`/`ENOSYS` fall back to `set_len` and yield `Ok(false)` (or the
`set_len` error); `ENOSPC` is surfaced as the out-of-space error; any
other errno is returned as an error. -/
theorem c9_fallocate (setLenOk : Bool) :
    ∀ outcomes, fallocate setLenOk outcomes = fallocateSpec setLenOk outcomes := by
  intro outcomes
  induction outcomes with
  | nil => rfl
  | cons r rest ih =>
    cases r with
    | ok => rfl
    | err e =>
      by_cases he : e = EINTR
      · subst he
        have h1 : fallocate setLenOk (SysRes.err EINTR :: rest) =
            fallocate setLenOk rest := by
          simp [fallocate, EINTR, EOPNOTSUPP, ENOSYS, ENOSPC]
        have h2 : fallocateSpec setLenOk (SysRes.err EINTR :: rest) =
            fallocateSpec setLenOk rest := by
          simp [fallocateSpec, List.dropWhile_cons]
        rw [h1, h2, ih]
      · have hd : (SysRes.err e :: rest).dropWhile
            (fun r => decide (r = SysRes.err EINTR)) = SysRes.err e :: rest := by
          simp [List.dropWhile_cons, he]
        simp only [fallocate, fallocateSpec, hd]
        by_cases h1 : e = EOPNOTSUPP ∨ e = ENOSYS
        · simp [h1]
        · by_cases h2 : e = ENOSPC
          · simp [h1, h2]
          · simp [h1, h2, he]

/-! ## Claim C10: message encode vs len -/

theorem beBytes_length : ∀ k n, (beBytes k n).length = k := by
  intro k
  induction k with
  | zero => intro n; rfl
  | succ k ih => intro n; simp [beBytes, ih]

/-- C10: for every message except `Piece`/`SharedPiece`, a successful
`Message::encode` writes exactly `Message::len` bytes; for
`Piece`/`SharedPiece` it writes exactly the 13 header bytes — length field
`9+length`, id 7, index, begin — and no payload, although `len()` reports
`13 + data.len()`. -/
theorem c10_encode_len (m : Message) (hwf : m.wf) (bs : List Nat)
    (he : m.encodeBytes = some bs) :
    (match m with
     | .piece index begin length data =>
       bs = be32 (9 + length) ++ [7] ++ be32 index ++ be32 begin ∧
         bs.length = 13 ∧ m.len = 13 + data.length
     | .sharedPiece index begin length data =>
       bs = be32 (9 + length) ++ [7] ++ be32 index ++ be32 begin ∧
         bs.length = 13 ∧ m.len = 13 + data.length
     | _ => bs.length = m.len) := by
  have h19 : ("BitTorrent protocol").toList.length = 19 := rfl
  cases m with
  | handshake rsv hash id =>
    obtain ⟨h8, h20, hid⟩ := hwf
    simp [Message.encodeBytes, hid] at he
    simp [← he, Message.len, h8, h20, hid, h19]
  | keepAlive => simp [Message.encodeBytes] at he; simp [← he, Message.len, be32, beBytes_length]
  | choke => simp [Message.encodeBytes] at he; simp [← he, Message.len, be32, beBytes_length]
  | unchoke => simp [Message.encodeBytes] at he; simp [← he, Message.len, be32, beBytes_length]
  | interested => simp [Message.encodeBytes] at he; simp [← he, Message.len, be32, beBytes_length]
  | uninterested =>
    simp [Message.encodeBytes] at he; simp [← he, Message.len, be32, beBytes_length]
  | havePiece piece =>
    simp [Message.encodeBytes] at he; simp [← he, Message.len, be32, beBytes_length]
  | bitfield pf =>
    simp [Message.encodeBytes] at he
    simp [← he, Message.len, be32, beBytes_length]
    omega
  | request index begin length =>
    simp [Message.encodeBytes] at he
    simp [← he, Message.len, be32, beBytes_length]
  | piece index begin length data =>
    simp [Message.encodeBytes] at he
    simp [← he, Message.len, be32, beBytes_length]
  | sharedPiece index begin length data =>
    simp [Message.encodeBytes] at he
    simp [← he, Message.len, be32, beBytes_length]
  | cancel index begin length =>
    simp [Message.encodeBytes] at he
    simp [← he, Message.len, be32, beBytes_length]
  | port p =>
    simp [Message.encodeBytes] at he
    simp [← he, Message.len, be32, be16, beBytes_length]
  | extension id payload =>
    simp [Message.encodeBytes] at he
    simp [← he, Message.len, be32, beBytes_length]
    omega

/-- C10 witness: a concrete `Piece` message with a 2-byte payload encodes
to exactly the 13 header bytes while `len()` reports 15. -/
theorem c10_witness :
    ([0, 0, 0, 12, 7, 0, 0, 0, 1, 0, 0, 0, 2] : List Nat) =
        be32 (9 + 3) ++ [7] ++ be32 1 ++ be32 2 ∧
      ([0, 0, 0, 12, 7, 0, 0, 0, 1, 0, 0, 0, 2] : List Nat).length = 13 ∧
      (Message.piece 1 2 3 [9, 9]).len = 13 + 2 :=
  c10_encode_len (.piece 1 2 3 [9, 9]) True.intro
    [0, 0, 0, 12, 7, 0, 0, 0, 1, 0, 0, 0, 2] (by decide)

/-! ## Claim C7: Delete -/

theorem delFold_session (base : String) (artifacts : Bool) :
    ∀ (files : List (List String)) (st1 : DelSt),
      (files.foldl (delFileStep base artifacts) st1).session = st1.session := by
  intro files
  induction files with
  | nil => intro st1; rfl
  | cons f fs ih => intro st1; rw [List.foldl_cons, ih]; rfl

theorem delFold_dirs (base : String) (artifacts : Bool) :
    ∀ (files : List (List String)) (st1 : DelSt),
      (files.foldl (delFileStep base artifacts) st1).dirs = st1.dirs := by
  intro files
  induction files with
  | nil => intro st1; rfl
  | cons f fs ih => intro st1; rw [List.foldl_cons, ih]; rfl

theorem delFold_cache (base : String) (artifacts : Bool) :
    ∀ (files : List (List String)) (st1 : DelSt) (q : String),
      (files.foldl (delFileStep base artifacts) st1).cache q =
        if files.any (fun f => decide (q = pathOf base f)) then false else st1.cache q := by
  intro files
  induction files with
  | nil => intro st1 q; simp
  | cons f fs ih =>
    intro st1 q
    rw [List.foldl_cons, ih]
    by_cases h1 : q = pathOf base f
    · simp [delFileStep, setOff, h1]
    · simp [delFileStep, setOff, h1]

theorem delFold_disk (base : String) (artifacts : Bool) :
    ∀ (files : List (List String)) (st1 : DelSt) (q : String),
      (files.foldl (delFileStep base artifacts) st1).disk q =
        if artifacts && files.any (fun f => decide (q = pathOf base f)) then false
        else st1.disk q := by
  intro files
  induction files with
  | nil => intro st1 q; simp
  | cons f fs ih =>
    intro st1 q
    rw [List.foldl_cons, ih]
    cases artifacts with
    | false => simp [delFileStep, setOff]
    | true =>
      by_cases h1 : q = pathOf base f
      · simp [delFileStep, setOff, h1]
      · simp [delFileStep, setOff, h1]

theorem delFileStep_session (base : String) (artifacts : Bool) (acc : DelSt)
    (f : List String) : (delFileStep base artifacts acc f).session = acc.session := rfl

theorem delFileStep_cache (base : String) (artifacts : Bool) (acc : DelSt)
    (f : List String) :
    (delFileStep base artifacts acc f).cache = setOff acc.cache (pathOf base f) := rfl

theorem delFileStep_disk (base : String) (artifacts : Bool) (acc : DelSt)
    (f : List String) :
    (delFileStep base artifacts acc f).disk =
      if artifacts then setOff acc.disk (pathOf base f) else acc.disk := rfl

theorem deleteExec_session (dd sd : String) (dirEmpty : Bool) (hash : List Nat)
    (files : List (List String)) (pathOv : Option String) (artifacts : Bool) (st : DelSt)
    (q : String) :
    (deleteExec dd sd dirEmpty hash files pathOv artifacts st).1.session q =
      setOff (setOff st.session (pjoin sd (hashToId hash)))
        (pjoin sd (hashToId hash ++ ".torrent")) q := by
  cases files with
  | nil => cases dirEmpty <;> simp [deleteExec, delFold_session]
  | cons f0 fs =>
    cases dirEmpty <;>
      simp [deleteExec, delFold_session, delFileStep_session]

theorem deleteExec_cache (dd sd : String) (dirEmpty : Bool) (hash : List Nat)
    (files : List (List String)) (pathOv : Option String) (artifacts : Bool) (st : DelSt)
    (q : String) :
    (deleteExec dd sd dirEmpty hash files pathOv artifacts st).1.cache q =
      if files.any (fun f => decide (q = pathOf (pathOv.getD dd) f)) then false
      else st.cache q := by
  cases files with
  | nil => cases dirEmpty <;> simp [deleteExec]
  | cons f0 fs =>
    cases dirEmpty <;>
      (by_cases hq : q = pathOf (pathOv.getD dd) f0 <;>
        simp [deleteExec, delFold_cache, delFileStep_cache, setOff, hq])

theorem deleteExec_disk (dd sd : String) (dirEmpty : Bool) (hash : List Nat)
    (files : List (List String)) (pathOv : Option String) (artifacts : Bool) (st : DelSt)
    (q : String) :
    (deleteExec dd sd dirEmpty hash files pathOv artifacts st).1.disk q =
      if artifacts && files.any (fun f => decide (q = pathOf (pathOv.getD dd) f)) then false
      else st.disk q := by
  cases files with
  | nil => cases dirEmpty <;> simp [deleteExec]
  | cons f0 fs =>
    cases dirEmpty <;> cases artifacts <;>
      (by_cases hq : q = pathOf (pathOv.getD dd) f0 <;>
        simp [deleteExec, delFold_disk, delFileStep_disk, setOff, hq])

theorem remDir_not_mem_fileOps (base : String) (artifacts : Bool)
    (files : List (List String)) (p : String) :
    DelOp.remDir p ∉ files.flatMap (fun f =>
      DelOp.evict (pathOf base f) ::
        (if artifacts then [DelOp.remDiskFile (pathOf base f)] else [])) := by
  intro h
  simp only [List.mem_flatMap, List.mem_cons] at h
  rcases h with ⟨a, _, h | h⟩
  · simp at h
  · cases artifacts <;> simp at h

theorem remDiskFile_mem_fileOps (base : String) (artifacts : Bool)
    (files : List (List String)) (p : String) :
    DelOp.remDiskFile p ∈ files.flatMap (fun f =>
        DelOp.evict (pathOf base f) ::
          (if artifacts then [DelOp.remDiskFile (pathOf base f)] else [])) ↔
      artifacts = true ∧ ∃ f ∈ files, p = pathOf base f := by
  simp only [List.mem_flatMap, List.mem_cons]
  cases artifacts with
  | false => simp
  | true =>
    constructor
    · rintro ⟨a, ha, h | h⟩
      · simp at h
      · simp at h
        exact ⟨rfl, a, ha, h⟩
    · rintro ⟨-, f, hf, hp⟩
      exact ⟨f, hf, Or.inr (by simp [hp])⟩

/-- C7 (amended): `Delete` removes `<sd>/<hex-hash>` and
`<sd>/<hex-hash>.torrent` ignoring missing files; evicts every listed file
from the File Cache regardless of `artifacts`; deletes the files on disk
iff `artifacts` is true; and attempts to remove the top-level torrent
directory whenever the file list is nonempty — regardless of `artifacts` —
with removal errors ignored. -/
theorem c7_delete (dd sd : String) (dirEmpty : Bool) (hash : List Nat)
    (files : List (List String)) (pathOv : Option String) (artifacts : Bool) (st : DelSt) :
    (deleteExec dd sd dirEmpty hash files pathOv artifacts st).1.session
        (pjoin sd (hashToId hash)) = false ∧
      (deleteExec dd sd dirEmpty hash files pathOv artifacts st).1.session
        (pjoin sd (hashToId hash ++ ".torrent")) = false ∧
      (∀ f ∈ files,
        (deleteExec dd sd dirEmpty hash files pathOv artifacts st).1.cache
          (pathOf (pathOv.getD dd) f) = false) ∧
      (artifacts = true → ∀ f ∈ files,
        (deleteExec dd sd dirEmpty hash files pathOv artifacts st).1.disk
          (pathOf (pathOv.getD dd) f) = false) ∧
      (artifacts = false → ∀ q,
        (deleteExec dd sd dirEmpty hash files pathOv artifacts st).1.disk q = st.disk q) ∧
      (∀ p, DelOp.remDiskFile p ∈ (deleteExec dd sd dirEmpty hash files pathOv artifacts st).2 ↔
        artifacts = true ∧ ∃ f ∈ files, p = pathOf (pathOv.getD dd) f) ∧
      (∀ p, DelOp.remDir p ∈ (deleteExec dd sd dirEmpty hash files pathOv artifacts st).2 ↔
        ∃ f, files.head? = some f ∧ p = pjoin (pathOv.getD dd) (f.headD "")) := by
  refine ⟨?_, ?_, ?_, ?_, ?_, ?_, ?_⟩
  · rw [deleteExec_session]
    by_cases h1 : pjoin sd (hashToId hash) = pjoin sd (hashToId hash ++ ".torrent") <;>
      simp [setOff, h1]
  · rw [deleteExec_session]
    simp [setOff]
  · intro f hf
    rw [deleteExec_cache]
    have hany : files.any
        (fun g => decide (pathOf (pathOv.getD dd) f = pathOf (pathOv.getD dd) g)) = true := by
      simp only [List.any_eq_true]
      exact ⟨f, hf, by simp⟩
    simp [hany]
  · intro hart f hf
    rw [deleteExec_disk]
    have hany : files.any
        (fun g => decide (pathOf (pathOv.getD dd) f = pathOf (pathOv.getD dd) g)) = true := by
      simp only [List.any_eq_true]
      exact ⟨f, hf, by simp⟩
    simp [hany, hart]
  · intro hart q
    rw [deleteExec_disk]
    simp [hart]
  · intro p
    cases files with
    | nil => simp [deleteExec]
    | cons f0 fs =>
      simp only [deleteExec, List.head?_cons, List.mem_cons, List.mem_append,
        remDiskFile_mem_fileOps, List.mem_singleton]
      simp
  · intro p
    cases files with
    | nil => simp [deleteExec]
    | cons f0 fs =>
      simp only [deleteExec, List.head?_cons, List.mem_cons, List.mem_append]
      constructor
      · rintro (h | h | h | h)
        · simp at h
        · simp at h
        · exact absurd h (remDir_not_mem_fileOps (pathOv.getD dd) artifacts (f0 :: fs) p)
        · rcases h with h | h
          · simp only [DelOp.remDir.injEq] at h
            exact ⟨f0, rfl, h⟩
          · simp at h
      · rintro ⟨f, hf, hp⟩
        simp only [Option.some.injEq] at hf
        subst hf
        exact Or.inr (Or.inr (Or.inr (by simp [hp])))

/-- C7 witness: with `artifacts = true`, the listed file is evicted from
the File Cache. -/
theorem c7_witness :
    (deleteExec "dl" "sd" false (List.replicate 20 0) [["t", "a"]] none true fullSt).1.cache
      (pathOf "dl" ["t", "a"]) = false :=
  (c7_delete "dl" "sd" false (List.replicate 20 0) [["t", "a"]] none true fullSt).2.2.1
    ["t", "a"] (by decide)

/-- C7 counterexample: with `artifacts = false` and a nonempty file list,
the `Delete` arm still attempts `fs::remove_dir` on the top-level torrent
directory (and, the directory being empty, removes it) — refuting
"the attempt to remove the top-level torrent directory happens if and only
if artifacts is true". -/
theorem c7_counterexample :
    DelOp.remDir (pjoin "dl" "t") ∈
        (deleteExec "dl" "sd" true (List.replicate 20 0) [["t", "a"]] none false fullSt).2 ∧
      (deleteExec "dl" "sd" true (List.replicate 20 0) [["t", "a"]] none false fullSt).1.dirs
        (pjoin "dl" "t") = false := by
  exact ⟨by decide, by decide⟩

/-! ## Claim C4: single-range download headers -/

theorem matchAt_subset : ∀ (pat l : List Char), matchAt pat l = true → ∀ c ∈ pat, c ∈ l := by
  intro pat
  induction pat with
  | nil => intro l _ c hc; simp at hc
  | cons p ps ih =>
    intro l hm c hc
    cases l with
    | nil => simp [matchAt] at hm
    | cons x xs =>
      simp only [matchAt, Bool.and_eq_true, beq_iff_eq] at hm
      rcases List.mem_cons.mp hc with rfl | hc
      · rw [hm.1]; exact List.mem_cons_self _ _
      · exact List.mem_cons_of_mem _ (ih xs hm.2 c hc)

theorem containsSeq_subset : ∀ (l pat : List Char),
    containsSeq pat l = true → ∀ c ∈ pat, c ∈ l := by
  intro l
  induction l with
  | nil =>
    intro pat h c hc
    cases pat with
    | nil => simp at hc
    | cons p ps => simp [containsSeq, matchAt] at h
  | cons x xs ih =>
    intro pat h c hc
    simp only [containsSeq, Bool.or_eq_true] at h
    rcases h with h | h
    · exact matchAt_subset pat (x :: xs) h c hc
    · exact List.mem_cons_of_mem _ (ih pat h c hc)

theorem natStr_mem_digits (n : Nat) (c : Char) (hc : c ∈ natStr n) :
    c ∈ ['0', '1', '2', '3', '4', '5', '6', '7', '8', '9'] := by
  unfold natStr at hc
  by_cases h0 : n = 0
  · simp [h0] at hc
    simp [hc]
  · simp [h0] at hc
    obtain ⟨d, hd, hdc⟩ := hc
    have hlt : d < 10 := Nat.digits_lt_base (by norm_num) hd
    subst hdc
    interval_cases d <;> decide

theorem q_not_mem_natStr (n : Nat) : 'q' ∉ natStr n := fun h =>
  absurd (natStr_mem_digits n 'q' h) (by decide)

/-- C4: a ranged Download request with exactly one range `{S, N}` over a
file of length `L` collapses to the single-range form: the header block is
exactly `HTTP/1.1 206 Partial Content` followed by `Content-Length: N` and
a top-level `Content-Range: bytes S-E/L` with inclusive `E = S + N - 1`,
no multipart boundary occurs anywhere in it, and the stored request is
demoted to unranged with no sentinel range inserted. -/
theorem c4_single_range (S N L : Nat) (path : List Char) (hN : 1 ≤ N) :
    downloadHeader [⟨S, N⟩] true L path =
        ("HTTP/1.1 206 Partial Content").toList ++ crlf ++
        ("Content-Length: ").toList ++ natStr N ++ crlf ++
        ("Content-Range: bytes ").toList ++ natStr S ++ ['-'] ++ natStr (S + N - 1) ++
          ['/'] ++ natStr L ++ crlf ++
        ("Accept-Ranges: bytes").toList ++ crlf ++
        ("Content-Type: application/octet-stream;").toList ++ crlf ++
        ("Connection: Close").toList ++ crlf ++ crlf ∧
      containsSeq mpBoundary (downloadHeader [⟨S, N⟩] true L path) = false ∧
      downloadRangedFinal [⟨S, N⟩] true = false ∧
      downloadRangesFinal [⟨S, N⟩] true = [⟨S, N⟩] := by
  have heq : downloadHeader [⟨S, N⟩] true L path =
      ("HTTP/1.1 206 Partial Content").toList ++ crlf ++
      ("Content-Length: ").toList ++ natStr N ++ crlf ++
      ("Content-Range: bytes ").toList ++ natStr S ++ ['-'] ++ natStr (S + N - 1) ++
        ['/'] ++ natStr L ++ crlf ++
      ("Accept-Ranges: bytes").toList ++ crlf ++
      ("Content-Type: application/octet-stream;").toList ++ crlf ++
      ("Connection: Close").toList ++ crlf ++ crlf := by
    simp [downloadHeader, downloadLines, joinCRLF, List.intercalate, List.intersperse,
      List.append_assoc]
  refine ⟨heq, ?_, by simp [downloadRangedFinal], by simp [downloadRangesFinal,
    downloadRangedFinal]⟩
  cases hcs : containsSeq mpBoundary (downloadHeader [⟨S, N⟩] true L path) with
  | false => rfl
  | true =>
    exfalso
    have hmem := containsSeq_subset _ _ hcs 'q' (by decide)
    rw [heq] at hmem
    simp only [List.mem_append, q_not_mem_natStr, or_false, false_or] at hmem
    revert hmem
    decide

/-- C4 witness: the scenario of spec §8 — range 200–299 of a 1000-byte
file — has no boundary in its header block. -/
theorem c4_witness :
    containsSeq mpBoundary (downloadHeader [⟨200, 100⟩] true 1000 (("f").toList)) = false :=
  (c4_single_range 200 100 1000 (("f").toList) (by decide)).2.1

/-! ## Claim C5: multipart download streaming -/

theorem getD_set_self (l : List HRange) (i : Nat) (a d : HRange) (h : i < l.length) :
    (l.set i a).getD i d = a := by
  simp [List.getD_eq_getElem?_getD, List.getElem?_set_eq_of_lt a h]

theorem drop_set_succ (l : List HRange) (i : Nat) (a : HRange) :
    (l.set i a).drop (i + 1) = l.drop (i + 1) := by
  apply List.ext_getElem?
  intro n
  simp [List.getElem?_drop, List.getElem?_set]
  intro h
  omega

theorem fileRange_append (file : Nat → Nat) (S a b : Nat) :
    fileRange file S a ++ fileRange file (S + a) b = fileRange file S (a + b) := by
  unfold fileRange
  rw [List.range_add, List.map_append, List.map_map]
  congr 1
  apply List.map_congr_left
  intro i _
  simp [Function.comp]
  congr 1
  omega

theorem fileRange_length (file : Nat → Nat) (S n : Nat) :
    (fileRange file S n).length = n := by
  simp [fileRange]

theorem strBytes_length (l : List Char) : (strBytes l).length = l.length := by
  simp [strBytes]

theorem emits_step {file : Nat → Nat} {st : DlSt} {em : List Nat} {st' : DlSt}
    (hst : dlStep file st = .cont em st') : Emits file st em st' := by
  intro fuel out h
  refine ⟨fuel + 1, ?_⟩
  simp [dlRun, hst, h]

theorem emits_trans {file : Nat → Nat} {st : DlSt} {a : List Nat} {st₂ : DlSt}
    {b : List Nat} {st₃ : DlSt} (h1 : Emits file st a st₂) (h2 : Emits file st₂ b st₃) :
    Emits file st (a ++ b) st₃ := by
  intro fuel out h
  obtain ⟨g, hg⟩ := h2 fuel out h
  obtain ⟨g', hg'⟩ := h1 g (b ++ out) hg
  exact ⟨g', by rw [hg', List.append_assoc]⟩

theorem emitsDone_comp {file : Nat → Nat} {st : DlSt} {a : List Nat} {st' : DlSt}
    {b : List Nat} (h1 : Emits file st a st') (h2 : EmitsDone file st' b) :
    EmitsDone file st (a ++ b) := by
  obtain ⟨f, hf⟩ := h2
  exact h1 f b hf

theorem emits_drain {file : Nat → Nat} {st : DlSt} {data old : List Nat}
    (hw : st.writing = true) (hb : st.buf = bufOverwrite old data) (hi : st.bufIdx = 0)
    (hm : st.bufMax = data.length) :
    Emits file st data { st with writing := false } := by
  have he : (st.buf.drop st.bufIdx).take (st.bufMax - st.bufIdx) = data := by
    rw [hb, hi, hm, List.drop_zero, Nat.sub_zero, bufOverwrite, List.take_left]
  apply emits_step
  rw [show dlStep file st =
    .cont ((st.buf.drop st.bufIdx).take (st.bufMax - st.bufIdx)) { st with writing := false }
    from by simp [dlStep, hw], he]

theorem emits_consume (file : Nat → Nat) : ∀ (N : Nat) (st : DlSt) (S : Nat),
    st.writing = false → st.rangeIdx < st.ranges.length →
    st.ranges.getD st.rangeIdx ⟨0, 0⟩ = ⟨S, N⟩ →
    ∃ b bi bm, Emits file st (fileRange file S N)
      { st with
        ranges := st.ranges.set st.rangeIdx ⟨S + N, 0⟩,
        buf := b, bufIdx := bi, bufMax := bm } := by
  intro N
  induction N using Nat.strong_induction_on with
  | _ N ih =>
    intro st S hw hir hr
    by_cases h0 : N = 0
    · subst h0
      refine ⟨st.buf, st.bufIdx, st.bufMax, ?_⟩
      have hget : st.ranges[st.rangeIdx]? = some ⟨S, 0⟩ := by
        rw [List.getElem?_eq_getElem hir]
        have := hr
        rw [List.getD_eq_getElem?_getD, List.getElem?_eq_getElem hir] at this
        simp at this
        rw [this]
      have hset : st.ranges.set st.rangeIdx ⟨S + 0, 0⟩ = st.ranges := by
        apply List.ext_getElem?
        intro n
        rw [List.getElem?_set]
        split
        · rename_i hn
          subst hn
          simpa using hget.symm
        · rfl
      intro fuel out h
      rw [hset] at h
      exact ⟨fuel, h⟩
    · have h1 : 1 ≤ min N 16384 := by omega
      have hne : ¬st.rangeIdx = st.ranges.length := Nat.ne_of_lt hir
      have hr' : st.ranges[st.rangeIdx]?.getD ⟨0, 0⟩ = ⟨S, N⟩ := by
        rw [← List.getD_eq_getElem?_getD]; exact hr
      have hstep : dlStep file st = .cont [] { st with
          ranges := st.ranges.set st.rangeIdx ⟨S + min N 16384, N - min N 16384⟩,
          buf := bufOverwrite st.buf (fileRange file S (min N 16384)),
          bufIdx := 0,
          bufMax := min N 16384,
          writing := true } := by
        simp [dlStep, hw, hne, hr', h0]
      have hdrain : Emits file ({ st with
          ranges := st.ranges.set st.rangeIdx ⟨S + min N 16384, N - min N 16384⟩,
          buf := bufOverwrite st.buf (fileRange file S (min N 16384)),
          bufIdx := 0,
          bufMax := min N 16384,
          writing := true } : DlSt) (fileRange file S (min N 16384))
          { st with
            ranges := st.ranges.set st.rangeIdx ⟨S + min N 16384, N - min N 16384⟩,
            buf := bufOverwrite st.buf (fileRange file S (min N 16384)),
            bufIdx := 0,
            bufMax := min N 16384,
            writing := false } := by
        exact @emits_drain file
          ({ st with
            ranges := st.ranges.set st.rangeIdx ⟨S + min N 16384, N - min N 16384⟩,
            buf := bufOverwrite st.buf (fileRange file S (min N 16384)),
            bufIdx := 0,
            bufMax := min N 16384,
            writing := true })
          (fileRange file S (min N 16384)) st.buf
          rfl rfl rfl (by simp [fileRange_length])
      obtain ⟨b, bi, bm, hrec⟩ := ih (N - min N 16384) (by omega)
        ({ st with
          ranges := st.ranges.set st.rangeIdx ⟨S + min N 16384, N - min N 16384⟩,
          buf := bufOverwrite st.buf (fileRange file S (min N 16384)),
          bufIdx := 0,
          bufMax := min N 16384,
          writing := false }) (S + min N 16384) rfl
        (by simpa using hir)
        (by simpa using getD_set_self st.ranges st.rangeIdx _ _ hir)
      rw [show S + min N 16384 + (N - min N 16384) = S + N from by omega] at hrec
      simp only [List.set_set] at hrec
      refine ⟨b, bi, bm, ?_⟩
      have hall := emits_trans (emits_step hstep) (emits_trans hdrain hrec)
      rw [List.nil_append, fileRange_append,
        show min N 16384 + (N - min N 16384) = N from by omega] at hall
      rw [hw]
      exact hall

theorem emitsDone_parts (file : Nat → Nat) : ∀ (k : Nat) (st : DlSt),
    st.writing = false → st.ranged = true →
    st.rangeIdx < st.ranges.length →
    (st.ranges.getD st.rangeIdx ⟨0, 0⟩).length = 0 →
    st.ranges.length - st.rangeIdx - 1 = k →
    (∀ r ∈ st.ranges.drop (st.rangeIdx + 1), 1 ≤ r.length) →
    EmitsDone file st
      (((st.ranges.drop (st.rangeIdx + 1)).flatMap fun r =>
        strBytes (partHeader r st.fileLen) ++ fileRange file r.start r.length) ++
        strBytes mpCloser) := by
  intro k
  induction k with
  | zero =>
    intro st hw hrg hir h0 hk hpos
    have hlen : st.rangeIdx + 1 = st.ranges.length := by omega
    have hdrop : st.ranges.drop (st.rangeIdx + 1) = [] := by
      rw [hlen, List.drop_length]
    have hne : ¬st.rangeIdx = st.ranges.length := Nat.ne_of_lt hir
    have h0' : (st.ranges[st.rangeIdx]?.getD ⟨0, 0⟩).length = 0 := by
      rw [← List.getD_eq_getElem?_getD]; exact h0
    have hstep : dlStep file st = .cont [] { st with
        rangeIdx := st.rangeIdx + 1,
        buf := bufOverwrite st.buf (strBytes mpCloser),
        bufIdx := 0, bufMax := mpCloser.length, writing := true } := by
      simp [dlStep, hw, hne, h0', hlen, hrg]
    have hdrain : Emits file ({ st with
        rangeIdx := st.rangeIdx + 1,
        buf := bufOverwrite st.buf (strBytes mpCloser),
        bufIdx := 0, bufMax := mpCloser.length, writing := true } : DlSt)
        (strBytes mpCloser)
        { st with
          rangeIdx := st.rangeIdx + 1,
          buf := bufOverwrite st.buf (strBytes mpCloser),
          bufIdx := 0, bufMax := mpCloser.length, writing := false } :=
      emits_drain rfl rfl rfl (strBytes_length _).symm
    have hdone : EmitsDone file ({ st with
        rangeIdx := st.rangeIdx + 1,
        buf := bufOverwrite st.buf (strBytes mpCloser),
        bufIdx := 0, bufMax := mpCloser.length, writing := false } : DlSt) [] := by
      refine ⟨1, ?_⟩
      simp [dlRun, dlStep, hlen]
    have := emitsDone_comp (emits_step hstep) (emitsDone_comp hdrain hdone)
    simpa [hdrop] using this
  | succ k ih =>
    intro st hw hrg hir h0 hk hpos
    have hlt : st.rangeIdx + 1 < st.ranges.length := by omega
    have hne : ¬st.rangeIdx = st.ranges.length := Nat.ne_of_lt hir
    have hne2 : ¬st.rangeIdx + 1 = st.ranges.length := Nat.ne_of_lt hlt
    have h0' : (st.ranges[st.rangeIdx]?.getD ⟨0, 0⟩).length = 0 := by
      rw [← List.getD_eq_getElem?_getD]; exact h0
    have hstep : dlStep file st = .cont [] { st with
        rangeIdx := st.rangeIdx + 1,
        buf := bufOverwrite st.buf
          (strBytes (partHeader (st.ranges.getD (st.rangeIdx + 1) ⟨0, 0⟩) st.fileLen)),
        bufIdx := 0,
        bufMax := (partHeader (st.ranges.getD (st.rangeIdx + 1) ⟨0, 0⟩) st.fileLen).length,
        writing := true } := by
      simp [dlStep, hw, hne, h0', hne2, hrg, List.getD_eq_getElem?_getD]
    have hdrain : Emits file ({ st with
        rangeIdx := st.rangeIdx + 1,
        buf := bufOverwrite st.buf
          (strBytes (partHeader (st.ranges.getD (st.rangeIdx + 1) ⟨0, 0⟩) st.fileLen)),
        bufIdx := 0,
        bufMax := (partHeader (st.ranges.getD (st.rangeIdx + 1) ⟨0, 0⟩) st.fileLen).length,
        writing := true } : DlSt)
        (strBytes (partHeader (st.ranges.getD (st.rangeIdx + 1) ⟨0, 0⟩) st.fileLen))
        { st with
          rangeIdx := st.rangeIdx + 1,
          buf := bufOverwrite st.buf
            (strBytes (partHeader (st.ranges.getD (st.rangeIdx + 1) ⟨0, 0⟩) st.fileLen)),
          bufIdx := 0,
          bufMax := (partHeader (st.ranges.getD (st.rangeIdx + 1) ⟨0, 0⟩) st.fileLen).length,
          writing := false } :=
      emits_drain rfl rfl rfl (strBytes_length _).symm
    obtain ⟨b, bi, bm, hcons⟩ := emits_consume file
      ((st.ranges.getD (st.rangeIdx + 1) ⟨0, 0⟩).length)
      ({ st with
        rangeIdx := st.rangeIdx + 1,
        buf := bufOverwrite st.buf
          (strBytes (partHeader (st.ranges.getD (st.rangeIdx + 1) ⟨0, 0⟩) st.fileLen)),
        bufIdx := 0,
        bufMax := (partHeader (st.ranges.getD (st.rangeIdx + 1) ⟨0, 0⟩) st.fileLen).length,
        writing := false } : DlSt)
      ((st.ranges.getD (st.rangeIdx + 1) ⟨0, 0⟩).start)
      rfl (by simpa using hlt) rfl
    have hnext := ih ({ st with
        ranges := st.ranges.set (st.rangeIdx + 1)
          ⟨(st.ranges.getD (st.rangeIdx + 1) ⟨0, 0⟩).start +
            (st.ranges.getD (st.rangeIdx + 1) ⟨0, 0⟩).length, 0⟩,
        rangeIdx := st.rangeIdx + 1,
        buf := b, bufIdx := bi, bufMax := bm,
        writing := false } : DlSt)
      rfl hrg (by simpa using hlt)
      (by
        show ((st.ranges.set (st.rangeIdx + 1)
            ⟨(st.ranges.getD (st.rangeIdx + 1) ⟨0, 0⟩).start +
              (st.ranges.getD (st.rangeIdx + 1) ⟨0, 0⟩).length, 0⟩).getD
            (st.rangeIdx + 1) ⟨0, 0⟩).length = 0
        rw [getD_set_self _ _ _ _ hlt])
      (by simp; omega)
      (by
        intro r hr
        apply hpos
        simp only [drop_set_succ] at hr
        have hsub : st.ranges.drop (st.rangeIdx + 1 + 1) ⊆ st.ranges.drop (st.rangeIdx + 1) := by
          rw [← List.drop_drop]
          exact List.drop_subset _ _
        exact hsub hr)
    rw [show ({ st with
        ranges := st.ranges.set (st.rangeIdx + 1)
          ⟨(st.ranges.getD (st.rangeIdx + 1) ⟨0, 0⟩).start +
            (st.ranges.getD (st.rangeIdx + 1) ⟨0, 0⟩).length, 0⟩,
        rangeIdx := st.rangeIdx + 1,
        buf := b, bufIdx := bi, bufMax := bm,
        writing := false } : DlSt).ranges.drop (st.rangeIdx + 1 + 1) =
      st.ranges.drop (st.rangeIdx + 1 + 1) from drop_set_succ _ _ _] at hnext
    have hall := emitsDone_comp (emits_step hstep) (emitsDone_comp hdrain
      (emitsDone_comp hcons hnext))
    have hdropc : st.ranges.drop (st.rangeIdx + 1) =
        st.ranges.getD (st.rangeIdx + 1) ⟨0, 0⟩ :: st.ranges.drop (st.rangeIdx + 1 + 1) := by
      rw [List.drop_eq_getElem_cons hlt]
      congr 1
      rw [List.getD_eq_getElem?_getD, List.getElem?_eq_getElem hlt]
      rfl
    rw [hdropc, List.flatMap_cons]
    simpa [List.append_assoc] using hall

theorem dlRun_mono (file : Nat → Nat) : ∀ (fuel : Nat) (st : DlSt) (out : List Nat),
    dlRun file fuel st = some out → ∀ k, dlRun file (fuel + k) st = some out := by
  intro fuel
  induction fuel with
  | zero => intro st out h _; simp [dlRun] at h
  | succ fuel ih =>
    intro st out h k
    rw [show fuel + 1 + k = (fuel + k) + 1 from by omega]
    rw [dlRun] at h ⊢
    cases hs : dlStep file st with
    | done => rw [hs] at h; exact h
    | cont em st' =>
      rw [hs] at h
      have h' : (dlRun file fuel st').map (em ++ ·) = some out := h
      show (dlRun file (fuel + k) st').map (em ++ ·) = some out
      cases hr : dlRun file fuel st' with
      | none => rw [hr] at h'; simp at h'
      | some o' =>
        rw [hr] at h'
        simp at h'
        rw [ih st' o' hr k]
        simp [h']

theorem dlRun_unique (file : Nat → Nat) {f1 f2 : Nat} {st : DlSt} {o1 o2 : List Nat}
    (h1 : dlRun file f1 st = some o1) (h2 : dlRun file f2 st = some o2) : o1 = o2 := by
  have a1 := dlRun_mono file f1 st o1 h1 f2
  have a2 := dlRun_mono file f2 st o2 h2 f1
  rw [show f2 + f1 = f1 + f2 from by omega] at a2
  rw [a1] at a2
  exact Option.some.inj a2

theorem dlInit_eq (ranges : List HRange) (len : Nat) (path : List Char)
    (hnot1 : ¬ranges.length = 1) :
    dlInit ranges len path =
      { ranges := ⟨0, 0⟩ :: ranges
        rangeIdx := 0
        writing := true
        buf := bufOverwrite (List.replicate 16384 0)
          (strBytes (downloadHeader ranges true len path))
        bufIdx := 0
        bufMax := (downloadHeader ranges true len path).length
        ranged := true
        fileLen := len } := by
  have hb : (ranges.length == 1) = false := beq_eq_false_iff_ne.mpr hnot1
  have h1 : downloadRangesFinal ranges true = ⟨0, 0⟩ :: ranges := by
    simp [downloadRangesFinal, downloadRangedFinal, hb]
  have h2 : downloadRangedFinal ranges true = true := by
    simp [downloadRangedFinal, hb]
  unfold dlInit
  rw [h1, h2]

/-- C5: a ranged Download with `n > 1` ranges gets a zero-length sentinel
range prepended at construction, and (with an always-writable socket and
successful reads) the byte stream written to the socket is exactly the
top-level headers followed by, for each requested range, the part prefix
`\r\n--B\r\nContent-Type: application/octet-stream\r\nContent-Range:
bytes S-E/L\r\n\r\n` and that range's file bytes, terminated by
`\r\n--B--`; moreover every terminating run writes exactly that stream. -/
theorem c5_multipart (file : Nat → Nat) (ranges : List HRange) (len : Nat)
    (path : List Char) (h2 : 2 ≤ ranges.length) (hpos : ∀ r ∈ ranges, 1 ≤ r.length) :
    (dlInit ranges len path).ranges = ⟨0, 0⟩ :: ranges ∧
      EmitsDone file (dlInit ranges len path)
        (strBytes (downloadHeader ranges true len path) ++ multipartBody file ranges len) ∧
      (∀ fuel out, dlRun file fuel (dlInit ranges len path) = some out →
        out = strBytes (downloadHeader ranges true len path) ++
          multipartBody file ranges len) := by
  have hnot1 : ¬ranges.length = 1 := by omega
  rw [dlInit_eq ranges len path hnot1]
  refine ⟨rfl, ?_, ?_⟩
  · have hdrain : Emits file
        ({ ranges := ⟨0, 0⟩ :: ranges
           rangeIdx := 0
           writing := true
           buf := bufOverwrite (List.replicate 16384 0)
             (strBytes (downloadHeader ranges true len path))
           bufIdx := 0
           bufMax := (downloadHeader ranges true len path).length
           ranged := true
           fileLen := len } : DlSt)
        (strBytes (downloadHeader ranges true len path))
        { ranges := ⟨0, 0⟩ :: ranges
          rangeIdx := 0
          writing := false
          buf := bufOverwrite (List.replicate 16384 0)
            (strBytes (downloadHeader ranges true len path))
          bufIdx := 0
          bufMax := (downloadHeader ranges true len path).length
          ranged := true
          fileLen := len } :=
      emits_drain rfl rfl rfl (strBytes_length _).symm
    have hparts := emitsDone_parts file ranges.length
      ({ ranges := ⟨0, 0⟩ :: ranges
         rangeIdx := 0
         writing := false
         buf := bufOverwrite (List.replicate 16384 0)
           (strBytes (downloadHeader ranges true len path))
         bufIdx := 0
         bufMax := (downloadHeader ranges true len path).length
         ranged := true
         fileLen := len } : DlSt)
      rfl rfl (by simp) (by simp [List.getD]) (by simp) (by simpa using hpos)
    have hall := emitsDone_comp hdrain hparts
    exact hall
  · intro fuel out h
    have hdrain : Emits file
        ({ ranges := ⟨0, 0⟩ :: ranges
           rangeIdx := 0
           writing := true
           buf := bufOverwrite (List.replicate 16384 0)
             (strBytes (downloadHeader ranges true len path))
           bufIdx := 0
           bufMax := (downloadHeader ranges true len path).length
           ranged := true
           fileLen := len } : DlSt)
        (strBytes (downloadHeader ranges true len path))
        { ranges := ⟨0, 0⟩ :: ranges
          rangeIdx := 0
          writing := false
          buf := bufOverwrite (List.replicate 16384 0)
            (strBytes (downloadHeader ranges true len path))
          bufIdx := 0
          bufMax := (downloadHeader ranges true len path).length
          ranged := true
          fileLen := len } :=
      emits_drain rfl rfl rfl (strBytes_length _).symm
    have hparts := emitsDone_parts file ranges.length
      ({ ranges := ⟨0, 0⟩ :: ranges
         rangeIdx := 0
         writing := false
         buf := bufOverwrite (List.replicate 16384 0)
           (strBytes (downloadHeader ranges true len path))
         bufIdx := 0
         bufMax := (downloadHeader ranges true len path).length
         ranged := true
         fileLen := len } : DlSt)
      rfl rfl (by simp) (by simp [List.getD]) (by simp) (by simpa using hpos)
    have hall := emitsDone_comp hdrain hparts
    have hstream : EmitsDone file
        ({ ranges := ⟨0, 0⟩ :: ranges
           rangeIdx := 0
           writing := true
           buf := bufOverwrite (List.replicate 16384 0)
             (strBytes (downloadHeader ranges true len path))
           bufIdx := 0
           bufMax := (downloadHeader ranges true len path).length
           ranged := true
           fileLen := len } : DlSt)
        (strBytes (downloadHeader ranges true len path) ++ multipartBody file ranges len) :=
      hall
    obtain ⟨g, hg⟩ := hstream
    exact dlRun_unique file h hg

/-- C5 witness: two ranges over a 10-byte file — the sentinel is
prepended and the run terminates with headers, two framed parts, and the
trailer. -/
theorem c5_witness :
    (dlInit [⟨0, 2⟩, ⟨5, 1⟩] 10 (("f").toList)).ranges = ⟨0, 0⟩ :: [⟨0, 2⟩, ⟨5, 1⟩] ∧
      EmitsDone (fun i => 100 + i) (dlInit [⟨0, 2⟩, ⟨5, 1⟩] 10 (("f").toList))
        (strBytes (downloadHeader [⟨0, 2⟩, ⟨5, 1⟩] true 10 (("f").toList)) ++
          multipartBody (fun i => 100 + i) [⟨0, 2⟩, ⟨5, 1⟩] 10) := by
  have h := c5_multipart (fun i => 100 + i) [⟨0, 2⟩, ⟨5, 1⟩] 10 (("f").toList)
    (by decide) (by decide)
  exact ⟨h.1, h.2.1⟩
